import Mathlib

/-!
Verification of the Saper (Minesweeper) engine — `src/Saper.py`

Shallow embedding of the game engine of `Saper.py`:

* `Tile` mirrors the per-tile state of the Python `Tile` class: `state`
  (the integer value: `0`/`1` before value calculation, `0..8` counts and
  the mine sentinel `9` afterwards, `10..19` during the transitional pass),
  the cover flag `cov`, the flag `flagged`, the game-over traversal marker
  `triggered`, and the two value-calculation markers `tmp_calc` and
  `final_calc`.

* `Board` mirrors the `Board` class: dimensions `x`, `y` and the
  row-major list of tiles (`board` attribute in the source).  Neighbour
  pointers (`top_tile`, `bottom_tile`, ...) are not stored: `_link_tiles`
  assigns them deterministically from the coordinates, so the embedding
  resolves them by coordinate arithmetic:
  `top = (i-1, j)` (exists iff `1 ≤ i`), `bottom = (i+1, j)` (iff `i+1 < x`),
  `left = (i, j-1)` (iff `1 ≤ j`), `right = (i, j+1)` (iff `j+1 < y`),
  `top_left = (i-1, j-1)`, `bottom_right = (i+1, j+1)`, and — following the
  source's (oddly named) cross linking — `bottom_left = (i-1, j+1)` and
  `top_right = (i+1, j-1)`.

* The recursive methods `_uncover`, `_uncover_all`, `tmp_value_calc`,
  `final_value_calc` become fuel-indexed recursions threading the board
  state.  In the source each recursion terminates because every productive
  call permanently sets a per-tile marker (`cov`, `triggered`, `tmp_calc`,
  `final_calc`), so the recursion depth is bounded by the number of tiles
  still carrying the unset marker; the embedding passes exactly that count
  as fuel, which is proved sufficient where the theorems need it.

All GUI effects (`switch`, `_update`, icon handling, `tk` calls) only
change the displayed bitmap and are omitted; the game state they reflect
is exactly the embedded fields.
-/

/-- One minesweeper tile: the game-relevant attributes of the Python
`Tile` object. -/
structure Tile where
  state : Int
  cov : Bool
  flagged : Bool
  triggered : Bool
  tmp_calc : Bool
  final_calc : Bool
deriving DecidableEq, Repr

instance : Inhabited Tile := ⟨⟨0, true, false, false, false, false⟩⟩

/-- The minesweeper board: dimensions and the row-major tile matrix. -/
structure Board where
  x : Nat
  y : Nat
  cells : List (List Tile)
deriving DecidableEq, Repr

/-- Tile lookup `board[i][j]`. -/
def Board.get (b : Board) (i j : Nat) : Tile :=
  (b.cells.getD i []).getD j default

/-- Replace tile `(i, j)` (mutation of the tile object in the source). -/
def Board.setTile (b : Board) (i j : Nat) (t : Tile) : Board :=
  ⟨b.x, b.y, b.cells.set i ((b.cells.getD i []).set j t)⟩

/-- Well-formedness: the tile matrix has the advertised dimensions. -/
def Board.wf (b : Board) : Prop :=
  b.cells.length = b.x ∧ ∀ i < b.x, (b.cells.getD i []).length = b.y

instance (b : Board) : Decidable b.wf := by
  unfold Board.wf; infer_instance

/-- Number of in-bounds tiles satisfying `p`; used as the fuel bound for
the recursive traversals. -/
def countIdx (b : Board) (p : Tile → Bool) : Nat :=
  ∑ q ∈ Finset.range b.x ×ˢ Finset.range b.y,
    (if p (b.get q.1 q.2) then 1 else 0)

/-!
The reveal engine — `Tile.left_click`, `Tile._uncover_all`, `Tile._uncover`,
`Tile.right_click`

`_uncover_all` recursively visits the four side neighbours
(`top_tile`, `bottom_tile`, `left_tile`, `right_tile`), guarded only by
the `triggered` marker (it has no `cov` or `flagged` check), and sets
`cov = False` and `triggered = True` on every tile it visits.

`_uncover` reveals the tile if covered; if its value is `0` it visits the
four side neighbours in source order: a neighbour with value `0` is
recursed into, a neighbour with a value other than `0` and `9` is
revealed in place, a neighbour with value `9` is left alone.

Fuel bounds the recursion depth; every productive nested call permanently
flips a marker (`triggered` resp. `cov`) on a distinct tile, so the count
of tiles still carrying the marker is a sufficient fuel, as passed by
`leftClick` below.
-/

/-- Embedding of `Tile._uncover_all`: the game-over cascade. -/
def uncoverAll : Nat → Board → Nat → Nat → Board
  | 0, b, _, _ => b
  | f+1, b, i, j =>
    if (b.get i j).triggered then b
    else
      let b1 := b.setTile i j { b.get i j with cov := false, triggered := true }
      let b2 := if 1 ≤ i then uncoverAll f b1 (i - 1) j else b1
      let b3 := if i + 1 < b.x then uncoverAll f b2 (i + 1) j else b2
      let b4 := if 1 ≤ j then uncoverAll f b3 i (j - 1) else b3
      if j + 1 < b.y then uncoverAll f b4 i (j + 1) else b4

/-- The per-neighbour block repeated four times inside `Tile._uncover`:
recurse (`rec` is the recursive call) on value `0`, reveal in place on a
value other than `0` and `9`, skip mines. -/
def uncoverNb (rec : Board → Nat → Nat → Board) (b : Board) (k l : Nat) :
    Board :=
  if (b.get k l).state = 0 then rec b k l
  else if (b.get k l).state ≠ 9 then
    b.setTile k l { b.get k l with cov := false }
  else b

/-- Embedding of `Tile._uncover`: the zero-value flood fill. -/
def uncover : Nat → Board → Nat → Nat → Board
  | 0, b, _, _ => b
  | f+1, b, i, j =>
    if (b.get i j).cov then
      let b1 := b.setTile i j { b.get i j with cov := false }
      if (b1.get i j).state = 0 then
        let b2 := if 1 ≤ i then uncoverNb (uncover f) b1 (i - 1) j else b1
        let b3 := if i + 1 < b.x then uncoverNb (uncover f) b2 (i + 1) j else b2
        let b4 := if 1 ≤ j then uncoverNb (uncover f) b3 i (j - 1) else b3
        if j + 1 < b.y then uncoverNb (uncover f) b4 i (j + 1) else b4
      else b1
    else b

/-- Embedding of `Tile.left_click`: reveal a tile — only when covered and unflagged;
a mine (`state = 9`) triggers the full cascade, anything else the local
flood fill. -/
def leftClick (b : Board) (i j : Nat) : Board :=
  if (b.get i j).cov then
    if (b.get i j).flagged then b
    else if (b.get i j).state = 9 then
      uncoverAll (countIdx b (fun t => !t.triggered)) b i j
    else
      uncover (countIdx b (fun t => t.cov)) b i j
  else b

/-- Embedding of `Tile.right_click`: toggle the flag of a covered tile. -/
def rightClick (b : Board) (i j : Nat) : Board :=
  if (b.get i j).cov then
    if (b.get i j).flagged then
      b.setTile i j { b.get i j with flagged := false }
    else
      b.setTile i j { b.get i j with flagged := true }
  else b

/-!
Value calculation — `Tile._value`, `Tile.tmp_value_calc`,
`Tile.final_value_calc`, `Tile.calculate_values`

`_value` computes the transitional value of a tile from the current
states of its eight neighbour pointers: a mine (`state == 1`) maps to
`9`; otherwise each neighbour contributes its state if it is still
original (`0` or `1`) and `1` if it is the transitional mine value `19`;
the result is offset by `+10`.

The neighbour pointers are resolved by coordinates as assigned by
`Board._link_tiles`; note the source's cross linking stores the tile at
`(i-1, j+1)` in `bottom_left_tile` and the tile at `(i+1, j-1)` in
`top_right_tile`, so the eight pointers together cover exactly the eight
standard in-bounds neighbours.
-/

/-- Contribution of one neighbour state in `Tile._value`. -/
def valueContrib (s : Int) : Int :=
  if s = 0 ∨ s = 1 then s else if s = 19 then 1 else 0

/-- Embedding of `Tile._value` for the tile at `(i, j)`. -/
def valueCalc (b : Board) (i j : Nat) : Int :=
  if (b.get i j).state = 1 then 9 + 10
  else
    ((if 1 ≤ i then valueContrib (b.get (i - 1) j).state else 0)   -- top_tile
     + (if i + 1 < b.x then valueContrib (b.get (i + 1) j).state else 0)  -- bottom_tile
     + (if 1 ≤ j then valueContrib (b.get i (j - 1)).state else 0)  -- left_tile
     + (if j + 1 < b.y then valueContrib (b.get i (j + 1)).state else 0)  -- right_tile
     + (if 1 ≤ i ∧ 1 ≤ j then valueContrib (b.get (i - 1) (j - 1)).state else 0)  -- top_left_tile
     + (if i + 1 < b.x ∧ 1 ≤ j then valueContrib (b.get (i + 1) (j - 1)).state else 0)  -- top_right_tile
     + (if 1 ≤ i ∧ j + 1 < b.y then valueContrib (b.get (i - 1) (j + 1)).state else 0)  -- bottom_left_tile
     + (if i + 1 < b.x ∧ j + 1 < b.y then valueContrib (b.get (i + 1) (j + 1)).state else 0))  -- bottom_right_tile
    + 10

/-- Embedding of `Tile.tmp_value_calc`: first in-place pass, recursing over the four
side neighbours with `tmp_calc` as the visited marker. -/
def tmpValueCalc : Nat → Board → Nat → Nat → Board
  | 0, b, _, _ => b
  | f+1, b, i, j =>
    if (b.get i j).tmp_calc then b
    else
      let b1 := b.setTile i j
        { b.get i j with state := valueCalc b i j, tmp_calc := true }
      let b2 := if 1 ≤ i then tmpValueCalc f b1 (i - 1) j else b1
      let b3 := if i + 1 < b.x then tmpValueCalc f b2 (i + 1) j else b2
      let b4 := if 1 ≤ j then tmpValueCalc f b3 i (j - 1) else b3
      if j + 1 < b.y then tmpValueCalc f b4 i (j + 1) else b4

/-- Embedding of `Tile.final_value_calc`: second in-place pass subtracting the `+10`
offset, recursing over the four side neighbours with `final_calc` as the
visited marker. -/
def finalValueCalc : Nat → Board → Nat → Nat → Board
  | 0, b, _, _ => b
  | f+1, b, i, j =>
    if (b.get i j).final_calc then b
    else
      let b1 := b.setTile i j
        { b.get i j with state := (b.get i j).state - 10, final_calc := true }
      let b2 := if 1 ≤ i then finalValueCalc f b1 (i - 1) j else b1
      let b3 := if i + 1 < b.x then finalValueCalc f b2 (i + 1) j else b2
      let b4 := if 1 ≤ j then finalValueCalc f b3 i (j - 1) else b3
      if j + 1 < b.y then finalValueCalc f b4 i (j + 1) else b4

/-- Embedding of `Tile.calculate_values` as invoked by `Board._link_tiles`:
`self.board[0][0].calculate_values()` — the transitional pass followed by
the final pass, both started at tile `(0, 0)`. -/
def calculateValues (b : Board) : Board :=
  let b1 := tmpValueCalc (countIdx b (fun t => !t.tmp_calc)) b 0 0
  finalValueCalc (countIdx b1 (fun t => !t.final_calc)) b1 0 0

/-- The number of mines among the in-bounds 8-neighbours of `(i, j)`,
counted on a board whose states are still the raw minefield indicators
(`1` = mine): the specified value of a non-mine cell. -/
def mineNbCount (b : Board) (i j : Nat) : Int :=
  (if 1 ≤ i ∧ (b.get (i - 1) j).state = 1 then 1 else 0)
  + (if i + 1 < b.x ∧ (b.get (i + 1) j).state = 1 then 1 else 0)
  + (if 1 ≤ j ∧ (b.get i (j - 1)).state = 1 then 1 else 0)
  + (if j + 1 < b.y ∧ (b.get i (j + 1)).state = 1 then 1 else 0)
  + (if 1 ≤ i ∧ 1 ≤ j ∧ (b.get (i - 1) (j - 1)).state = 1 then 1 else 0)
  + (if i + 1 < b.x ∧ 1 ≤ j ∧ (b.get (i + 1) (j - 1)).state = 1 then 1 else 0)
  + (if 1 ≤ i ∧ j + 1 < b.y ∧ (b.get (i - 1) (j + 1)).state = 1 then 1 else 0)
  + (if i + 1 < b.x ∧ j + 1 < b.y ∧ (b.get (i + 1) (j + 1)).state = 1 then 1 else 0)

/-!
Minefield generation — `Board._generate_minefield`

The Python loop draws `a = randrange(1, self.x)` and
`b = randrange(1, self.y)` until `z` mines are placed, retrying on
collision.  `randrange(1, n)` yields a value in `{1, ..., n-1}`; the
embedding maps an arbitrary pair of naturals `(p, q)` from the random
stream to `(1 + p % (x-1), 1 + q % (y-1))`, which realises exactly that
range (for `x, y ≥ 2`).  The stream is a finite list of draws; exhausting
it before `z` mines are placed yields `none` (the Python loop would
still be running at that point, so a run that returns `none` for every
finite stream is a non-terminating run).
-/

/-- Minefield entry lookup `minefield[i][j]`. -/
def mfGet (mf : List (List Nat)) (i j : Nat) : Nat :=
  (mf.getD i []).getD j 0

/-- Minefield entry update. -/
def mfSet (mf : List (List Nat)) (i j : Nat) (v : Nat) : List (List Nat) :=
  mf.set i ((mf.getD i []).set j v)

/-- Embedding of `Board._init_tiles`: every tile starts covered, unflagged and
unmarked, with its `state` taken from the minefield entry. -/
def initTiles (x y : Nat) (mf : List (List Nat)) : Board :=
  ⟨x, y, (List.range x).map (fun i => (List.range y).map
    (fun j => ⟨(mfGet mf i j : Int), true, false, false, false, false⟩))⟩

/-- The mine-placement `while` loop of `Board._generate_minefield`;
`k` is the number of mines still to place (`z - j` in the source). -/
def mineLoop (x y : Nat) : List (Nat × Nat) → Nat → List (List Nat) →
    Option (List (List Nat))
  | _, 0, mf => some mf
  | [], _+1, _ => none
  | (p, q) :: rest, k+1, mf =>
    let a := 1 + p % (x - 1)
    let b := 1 + q % (y - 1)
    if mfGet mf a b = 0 then mineLoop x y rest k (mfSet mf a b 1)
    else mineLoop x y rest (k+1) mf

/-- Embedding of `Board._generate_minefield`: an all-zero `x × y` field, then the
placement loop for `z` mines. -/
def genMinefield (x y z : Nat) (draws : List (Nat × Nat)) :
    Option (List (List Nat)) :=
  mineLoop x y draws z (List.replicate x (List.replicate y 0))

/-- Total number of mines in a minefield. -/
def mineSum (x y : Nat) (mf : List (List Nat)) : Nat :=
  ∑ q ∈ Finset.range x ×ˢ Finset.range y, mfGet mf q.1 q.2

/-- Structural invariant of the minefield during generation: the field
is `x × y`, entries are `0`/`1`, and — because `randrange(1, n)` never
returns `0` — row `0` and column `0` contain no mines. -/
def mfInv (x y : Nat) (mf : List (List Nat)) : Prop :=
  mf.length = x ∧ (∀ i < x, (mf.getD i []).length = y)
  ∧ (∀ i < x, ∀ j < y, mfGet mf i j ≤ 1)
  ∧ (∀ j < y, mfGet mf 0 j = 0)
  ∧ (∀ i < x, mfGet mf i 0 = 0)

/-!
Effect relations

Each recursive traversal touches a tile at most in one specific way;
the relations below describe the possible per-tile effects and are
transitive, so they follow the sequential threading of the board through
the recursion.  `dimWF` records preservation of the dimensions and of
well-formedness.
-/

/-- Per-tile effect of `uncover`: unchanged, or revealed. -/
def covR (t u : Tile) : Prop := u = t ∨ u = { t with cov := false }

/-- Per-tile effect of `uncoverAll`: unchanged, or revealed and marked
`triggered` (only when not yet triggered). -/
def trigR (t u : Tile) : Prop :=
  u = t ∨ (t.triggered = false ∧ u = { t with cov := false, triggered := true })

/-- Per-tile effect of `tmpValueCalc`: unchanged, or given a new state
and marked `tmp_calc` (only when not yet marked). -/
def tmpR (t u : Tile) : Prop :=
  u = t ∨ (t.tmp_calc = false ∧ ∃ s, u = { t with state := s, tmp_calc := true })

/-- Per-tile effect of `finalValueCalc`: unchanged, or state lowered by
`10` and marked `final_calc` (only when not yet marked). -/
def finR (t u : Tile) : Prop :=
  u = t ∨ (t.final_calc = false ∧ u = { t with state := t.state - 10, final_calc := true })

/-- Dimension and well-formedness preservation between two boards. -/
def dimWF (b c : Board) : Prop :=
  c.x = b.x ∧ c.y = b.y ∧ (b.wf → c.wf)

/-- Invariant of the transitional pass relative to the initial board
`b0` (whose states are the raw minefield indicators `0`/`1`): a tile not
yet marked `tmp_calc` still carries its raw state, while a marked tile
carries the transitional encoding — `19` for a mine, `10 + count` for a
non-mine. -/
def tmpInv (b0 b : Board) : Prop :=
  b.x = b0.x ∧ b.y = b0.y ∧
  ∀ k l, k < b0.x → l < b0.y →
    (((b.get k l).tmp_calc = false → (b.get k l).state = (b0.get k l).state) ∧
     ((b.get k l).tmp_calc = true → (b.get k l).state =
        (if (b0.get k l).state = 1 then 19 else 10 + mineNbCount b0 k l)))

/-!
Concrete boards used as test inputs

Tile literals list the fields in order
`state`, `cov`, `flagged`, `triggered`, `tmp_calc`, `final_calc`.
-/

/-- A 1×2 board: a covered unflagged mine at `(0,0)`, a covered flagged
tile of value `1` at `(0,1)`. -/
def bC1 : Board :=
  ⟨1, 2, [[⟨9, true, false, false, true, true⟩, ⟨1, true, true, false, true, true⟩]]⟩

/-- A 3×3 board generated from the minefield with mines at `(0,2)` and
`(2,0)`; its computed values are `[[0,1,9],[1,2,1],[9,1,0]]`, so `(0,0)`
is a zero cell whose diagonal neighbour `(1,1)` has value `2`. -/
def bC2 : Board := calculateValues (initTiles 3 3 [[0, 0, 1], [0, 0, 0], [1, 0, 0]])

/-- A 3×3 board freshly initialised from the minefield with a single
mine at `(1,1)`. -/
def bC3 : Board := initTiles 3 3 [[0, 0, 0], [0, 1, 0], [0, 0, 0]]

/-- A mine-free 2×2 board, fully covered, all values zero. -/
def bC6 : Board := initTiles 2 2 [[0, 0], [0, 0]]

/-- A 1×2 board: `(0,0)` revealed, `(0,1)` covered and flagged. -/
def bC9 : Board :=
  ⟨1, 2, [[⟨1, false, false, false, true, true⟩, ⟨1, true, true, false, true, true⟩]]⟩

/-- A 1×2 board of zero-valued covered tiles with `(0,1)` flagged. -/
def bC10 : Board :=
  ⟨1, 2, [[⟨0, true, false, false, true, true⟩, ⟨0, true, true, false, true, true⟩]]⟩

-- ### Basic list lemmas

theorem getD_set_eq {α : Type} (l : List α) (i : Nat) (a d : α)
    (h : i < l.length) : (l.set i a).getD i d = a := by
  induction l generalizing i with
  | nil => simp at h
  | cons hd tl ih =>
    cases i with
    | zero => simp [List.set, List.getD]
    | succ n =>
      simp only [List.set, List.getD] at *
      exact ih n (by simpa using h)

theorem getD_set_ne {α : Type} (l : List α) (i k : Nat) (a d : α)
    (h : k ≠ i) : (l.set i a).getD k d = l.getD k d := by
  induction l generalizing i k with
  | nil => simp [List.set]
  | cons hd tl ih =>
    cases i with
    | zero =>
      cases k with
      | zero => exact absurd rfl h
      | succ m => simp [List.set, List.getD]
    | succ n =>
      cases k with
      | zero => simp [List.set, List.getD]
      | succ m =>
        simp only [List.set, List.getD] at *
        exact ih n m (fun hc => h (by omega))

theorem set_of_len_le {α : Type} (l : List α) (i : Nat) (a : α)
    (h : l.length ≤ i) : l.set i a = l := by
  induction l generalizing i with
  | nil => simp
  | cons hd tl ih =>
    cases i with
    | zero => simp at h
    | succ n => simp only [List.set]; rw [ih n (by simpa using h)]

-- ### Board get/set lemmas

theorem Board.setTile_x (b : Board) (i j : Nat) (t : Tile) :
    (b.setTile i j t).x = b.x := rfl

theorem Board.setTile_y (b : Board) (i j : Nat) (t : Tile) :
    (b.setTile i j t).y = b.y := rfl

theorem Board.get_setTile_ne (b : Board) (i j k l : Nat) (t : Tile)
    (h : ¬(k = i ∧ l = j)) : (b.setTile i j t).get k l = b.get k l := by
  unfold Board.get Board.setTile
  by_cases hk : k = i
  · subst hk
    have hl : l ≠ j := fun hl => h ⟨rfl, hl⟩
    by_cases hi : k < b.cells.length
    · rw [getD_set_eq _ _ _ _ hi]
      exact getD_set_ne _ _ _ _ _ hl
    · rw [set_of_len_le _ _ _ (by omega)]
  · simp only
    rw [getD_set_ne _ _ _ _ _ hk]

theorem Board.get_setTile_eq (b : Board) (i j : Nat) (t : Tile)
    (hw : b.wf) (hi : i < b.x) (hj : j < b.y) :
    (b.setTile i j t).get i j = t := by
  unfold Board.get Board.setTile
  obtain ⟨hlen, hrow⟩ := hw
  have hib : i < b.cells.length := by omega
  simp only
  rw [getD_set_eq _ _ _ _ hib]
  exact getD_set_eq _ _ _ _ (by rw [hrow i hi]; exact hj)

/-- Per-cell effect of `setTile`: any tile other than the target is
unchanged; the target becomes `t` (or nothing changes if the write is out
of the backing lists). -/
theorem Board.get_setTile_cases (b : Board) (i j k l : Nat) (t : Tile) :
    (b.setTile i j t).get k l = b.get k l ∨
    ((b.setTile i j t).get k l = t ∧ k = i ∧ l = j) := by
  by_cases h : k = i ∧ l = j
  · obtain ⟨hk, hl⟩ := h
    subst hk; subst hl
    unfold Board.get Board.setTile
    by_cases hi : k < b.cells.length
    · rw [getD_set_eq _ _ _ _ hi]
      by_cases hj : l < (b.cells.getD k []).length
      · right; exact ⟨getD_set_eq _ _ _ _ hj, rfl, rfl⟩
      · left; rw [set_of_len_le _ _ _ (by omega)]
    · left; rw [set_of_len_le _ _ _ (by omega)]
  · left; exact b.get_setTile_ne i j k l t h

theorem Board.wf_setTile (b : Board) (i j : Nat) (t : Tile)
    (hw : b.wf) : (b.setTile i j t).wf := by
  obtain ⟨hlen, hrow⟩ := hw
  constructor
  · simp [Board.setTile, hlen]
  · intro k hk
    show ((b.cells.set i ((b.cells.getD i []).set j t)).getD k []).length = b.y
    by_cases hki : k = i
    · subst hki
      by_cases hib : k < b.cells.length
      · rw [getD_set_eq _ _ _ _ hib]
        rw [List.length_set]
        exact hrow k hk
      · rw [set_of_len_le _ _ _ (by omega)]
        exact hrow k hk
    · rw [getD_set_ne _ _ _ _ _ hki]
      exact hrow k hk

-- ### countIdx lemmas

theorem countIdx_pos (b : Board) (p : Tile → Bool) (i j : Nat)
    (hi : i < b.x) (hj : j < b.y) (h : p (b.get i j) = true) :
    1 ≤ countIdx b p := by
  unfold countIdx
  have hmem : (i, j) ∈ Finset.range b.x ×ˢ Finset.range b.y := by
    simp [Finset.mem_product, hi, hj]
  calc (1 : Nat) = (if p (b.get i j) then 1 else 0) := by rw [h]; simp
    _ ≤ _ := Finset.single_le_sum (f := fun q => if p (b.get q.1 q.2) then 1 else 0)
        (fun q _ => Nat.zero_le _) hmem

theorem countIdx_setTile (b : Board) (p : Tile → Bool) (i j : Nat) (t : Tile)
    (hw : b.wf) (hi : i < b.x) (hj : j < b.y) :
    countIdx (b.setTile i j t) p + (if p (b.get i j) then 1 else 0)
      = countIdx b p + (if p t then 1 else 0) := by
  unfold countIdx
  have hmem : (i, j) ∈ Finset.range b.x ×ˢ Finset.range b.y := by
    simp [Finset.mem_product, hi, hj]
  rw [Board.setTile_x, Board.setTile_y]
  rw [← Finset.sum_erase_add _ _ hmem, ← Finset.sum_erase_add _ _ hmem]
  have hcong : ∀ q ∈ (Finset.range b.x ×ˢ Finset.range b.y).erase (i, j),
      (if p ((b.setTile i j t).get q.1 q.2) then 1 else 0)
        = (if p (b.get q.1 q.2) then 1 else 0) := by
    intro q hq
    have hne : q ≠ (i, j) := Finset.ne_of_mem_erase hq
    rw [Board.get_setTile_ne]
    intro ⟨h1, h2⟩
    exact hne (Prod.ext h1 h2)
  rw [Finset.sum_congr rfl hcong]
  rw [Board.get_setTile_eq b i j t hw hi hj]
  dsimp only
  omega

theorem countIdx_le_of_imp (b c : Board) (p : Tile → Bool)
    (hx : c.x = b.x) (hy : c.y = b.y)
    (h : ∀ k l, k < b.x → l < b.y → p (c.get k l) = true → p (b.get k l) = true) :
    countIdx c p ≤ countIdx b p := by
  unfold countIdx
  rw [hx, hy]
  apply Finset.sum_le_sum
  intro q hq
  rw [Finset.mem_product, Finset.mem_range, Finset.mem_range] at hq
  by_cases hc : p (c.get q.1 q.2)
  · rw [if_pos hc, if_pos (h q.1 q.2 hq.1 hq.2 hc)]
  · simp [hc]

-- ### Effect relation lemmas

theorem covR_refl (t : Tile) : covR t t := Or.inl rfl

theorem covR_trans (t u v : Tile) (h1 : covR t u) (h2 : covR u v) : covR t v := by
  rcases h1 with rfl | rfl
  · exact h2
  · rcases h2 with rfl | rfl
    · exact Or.inr rfl
    · exact Or.inr rfl

theorem trigR_refl (t : Tile) : trigR t t := Or.inl rfl

theorem trigR_trans (t u v : Tile) (h1 : trigR t u) (h2 : trigR u v) : trigR t v := by
  rcases h1 with rfl | ⟨ht, rfl⟩
  · exact h2
  · rcases h2 with rfl | ⟨ht2, h2⟩
    · exact Or.inr ⟨ht, rfl⟩
    · simp at ht2
  
theorem tmpR_refl (t : Tile) : tmpR t t := Or.inl rfl

theorem tmpR_trans (t u v : Tile) (h1 : tmpR t u) (h2 : tmpR u v) : tmpR t v := by
  rcases h1 with rfl | ⟨ht, s, rfl⟩
  · exact h2
  · rcases h2 with rfl | ⟨ht2, s2, h2⟩
    · exact Or.inr ⟨ht, s, rfl⟩
    · simp at ht2

theorem finR_refl (t : Tile) : finR t t := Or.inl rfl

theorem finR_trans (t u v : Tile) (h1 : finR t u) (h2 : finR u v) : finR t v := by
  rcases h1 with rfl | ⟨ht, rfl⟩
  · exact h2
  · rcases h2 with rfl | ⟨ht2, h2⟩
    · exact Or.inr ⟨ht, rfl⟩
    · simp at ht2

theorem dimWF_refl (b : Board) : dimWF b b := ⟨rfl, rfl, id⟩

theorem dimWF_trans (b c d : Board) (h1 : dimWF b c) (h2 : dimWF c d) : dimWF b d :=
  ⟨h2.1.trans h1.1, h2.2.1.trans h1.2.1, fun hw => h2.2.2 (h1.2.2 hw)⟩

theorem dimWF_setTile (b : Board) (i j : Nat) (t : Tile) :
    dimWF b (b.setTile i j t) :=
  ⟨rfl, rfl, Board.wf_setTile b i j t⟩

-- ### `uncover` per-tile effect, dimensions, well-formedness

theorem uncover_dimWF : ∀ f b i j, dimWF b (uncover f b i j) := by
  intro f
  induction f with
  | zero => intro b i j; exact dimWF_refl b
  | succ f ih =>
    have hnb : ∀ c k' l', dimWF c (uncoverNb (uncover f) c k' l') := by
      intro c k' l'
      unfold uncoverNb
      split
      · exact ih c k' l'
      · split
        · exact dimWF_setTile c k' l' _
        · exact dimWF_refl c
    intro b i j
    have hstep : ∀ (c : Board) (k' l' : Nat) (cond : Prop) (inst : Decidable cond),
        dimWF c (if cond then uncoverNb (uncover f) c k' l' else c) := by
      intro c k' l' cond inst
      split
      · exact hnb c k' l'
      · exact dimWF_refl c
    rw [uncover]
    split
    · dsimp only
      split
      · refine dimWF_trans _ _ _ ?_ (hstep _ _ _ _ _)
        refine dimWF_trans _ _ _ ?_ (hstep _ _ _ _ _)
        refine dimWF_trans _ _ _ ?_ (hstep _ _ _ _ _)
        refine dimWF_trans _ _ _ ?_ (hstep _ _ _ _ _)
        exact dimWF_setTile b i j _
      · exact dimWF_setTile b i j _
    · exact dimWF_refl b

theorem uncover_covR : ∀ f b i j k l, covR (b.get k l) ((uncover f b i j).get k l) := by
  intro f
  induction f with
  | zero => intro b i j k l; exact covR_refl _
  | succ f ih =>
    have hnb : ∀ c k' l' k l, covR (c.get k l) ((uncoverNb (uncover f) c k' l').get k l) := by
      intro c k' l' k l
      unfold uncoverNb
      split
      · exact ih c k' l' k l
      · split
        · rcases Board.get_setTile_cases c k' l' k l _ with h | ⟨h, rfl, rfl⟩
          · exact Or.inl h
          · exact Or.inr h
        · exact covR_refl _
    intro b i j k l
    have hstep : ∀ (c : Board) (k' l' : Nat) (cond : Prop) (inst : Decidable cond),
        covR (c.get k l) ((if cond then uncoverNb (uncover f) c k' l' else c).get k l) := by
      intro c k' l' cond inst
      split
      · exact hnb c k' l' k l
      · exact covR_refl _
    have hb1 : covR (b.get k l) ((b.setTile i j { b.get i j with cov := false }).get k l) := by
      rcases Board.get_setTile_cases b i j k l { b.get i j with cov := false } with h | ⟨h, rfl, rfl⟩
      · exact Or.inl h
      · exact Or.inr h
    rw [uncover]
    split
    · dsimp only
      split
      · refine covR_trans _ _ _ ?_ (hstep _ _ _ _ _)
        refine covR_trans _ _ _ ?_ (hstep _ _ _ _ _)
        refine covR_trans _ _ _ ?_ (hstep _ _ _ _ _)
        refine covR_trans _ _ _ ?_ (hstep _ _ _ _ _)
        exact hb1
      · exact hb1
    · exact covR_refl _

-- ### `uncoverAll` per-tile effect, dimensions, well-formedness

theorem uncoverAll_dimWF : ∀ f b i j, dimWF b (uncoverAll f b i j) := by
  intro f
  induction f with
  | zero => intro b i j; exact dimWF_refl b
  | succ f ih =>
    intro b i j
    have hstep : ∀ (c : Board) (k' l' : Nat) (cond : Prop) (inst : Decidable cond),
        dimWF c (if cond then uncoverAll f c k' l' else c) := by
      intro c k' l' cond inst
      split
      · exact ih c k' l'
      · exact dimWF_refl c
    rw [uncoverAll]
    split
    · exact dimWF_refl b
    · dsimp only
      refine dimWF_trans _ _ _ ?_ (hstep _ _ _ _ _)
      refine dimWF_trans _ _ _ ?_ (hstep _ _ _ _ _)
      refine dimWF_trans _ _ _ ?_ (hstep _ _ _ _ _)
      refine dimWF_trans _ _ _ ?_ (hstep _ _ _ _ _)
      exact dimWF_setTile b i j _

theorem uncoverAll_trigR : ∀ f b i j k l,
    trigR (b.get k l) ((uncoverAll f b i j).get k l) := by
  intro f
  induction f with
  | zero => intro b i j k l; exact trigR_refl _
  | succ f ih =>
    intro b i j k l
    have hstep : ∀ (c : Board) (k' l' : Nat) (cond : Prop) (inst : Decidable cond),
        trigR (c.get k l) ((if cond then uncoverAll f c k' l' else c).get k l) := by
      intro c k' l' cond inst
      split
      · exact ih c k' l' k l
      · exact trigR_refl _
    rw [uncoverAll]
    split
    · exact trigR_refl _
    · rename_i htr
      dsimp only
      have hb1 : trigR (b.get k l)
          ((b.setTile i j { b.get i j with cov := false, triggered := true }).get k l) := by
        rcases Board.get_setTile_cases b i j k l
            { b.get i j with cov := false, triggered := true } with h | ⟨h, rfl, rfl⟩
        · exact Or.inl h
        · exact Or.inr ⟨by simpa using htr, h⟩
      refine trigR_trans _ _ _ ?_ (hstep _ _ _ _ _)
      refine trigR_trans _ _ _ ?_ (hstep _ _ _ _ _)
      refine trigR_trans _ _ _ ?_ (hstep _ _ _ _ _)
      refine trigR_trans _ _ _ ?_ (hstep _ _ _ _ _)
      exact hb1

-- ### `tmpValueCalc` per-tile effect, dimensions, well-formedness

theorem tmpValueCalc_dimWF : ∀ f b i j, dimWF b (tmpValueCalc f b i j) := by
  intro f
  induction f with
  | zero => intro b i j; exact dimWF_refl b
  | succ f ih =>
    intro b i j
    have hstep : ∀ (c : Board) (k' l' : Nat) (cond : Prop) (inst : Decidable cond),
        dimWF c (if cond then tmpValueCalc f c k' l' else c) := by
      intro c k' l' cond inst
      split
      · exact ih c k' l'
      · exact dimWF_refl c
    rw [tmpValueCalc]
    split
    · exact dimWF_refl b
    · dsimp only
      refine dimWF_trans _ _ _ ?_ (hstep _ _ _ _ _)
      refine dimWF_trans _ _ _ ?_ (hstep _ _ _ _ _)
      refine dimWF_trans _ _ _ ?_ (hstep _ _ _ _ _)
      refine dimWF_trans _ _ _ ?_ (hstep _ _ _ _ _)
      exact dimWF_setTile b i j _

theorem tmpValueCalc_tmpR : ∀ f b i j k l,
    tmpR (b.get k l) ((tmpValueCalc f b i j).get k l) := by
  intro f
  induction f with
  | zero => intro b i j k l; exact tmpR_refl _
  | succ f ih =>
    intro b i j k l
    have hstep : ∀ (c : Board) (k' l' : Nat) (cond : Prop) (inst : Decidable cond),
        tmpR (c.get k l) ((if cond then tmpValueCalc f c k' l' else c).get k l) := by
      intro c k' l' cond inst
      split
      · exact ih c k' l' k l
      · exact tmpR_refl _
    rw [tmpValueCalc]
    split
    · exact tmpR_refl _
    · rename_i htr
      dsimp only
      have hb1 : tmpR (b.get k l)
          ((b.setTile i j { b.get i j with state := valueCalc b i j, tmp_calc := true }).get k l) := by
        rcases Board.get_setTile_cases b i j k l
            { b.get i j with state := valueCalc b i j, tmp_calc := true } with h | ⟨h, rfl, rfl⟩
        · exact Or.inl h
        · exact Or.inr ⟨by simpa using htr, valueCalc b k l, h⟩
      refine tmpR_trans _ _ _ ?_ (hstep _ _ _ _ _)
      refine tmpR_trans _ _ _ ?_ (hstep _ _ _ _ _)
      refine tmpR_trans _ _ _ ?_ (hstep _ _ _ _ _)
      refine tmpR_trans _ _ _ ?_ (hstep _ _ _ _ _)
      exact hb1

-- ### `finalValueCalc` per-tile effect, dimensions, well-formedness

theorem finalValueCalc_dimWF : ∀ f b i j, dimWF b (finalValueCalc f b i j) := by
  intro f
  induction f with
  | zero => intro b i j; exact dimWF_refl b
  | succ f ih =>
    intro b i j
    have hstep : ∀ (c : Board) (k' l' : Nat) (cond : Prop) (inst : Decidable cond),
        dimWF c (if cond then finalValueCalc f c k' l' else c) := by
      intro c k' l' cond inst
      split
      · exact ih c k' l'
      · exact dimWF_refl c
    rw [finalValueCalc]
    split
    · exact dimWF_refl b
    · dsimp only
      refine dimWF_trans _ _ _ ?_ (hstep _ _ _ _ _)
      refine dimWF_trans _ _ _ ?_ (hstep _ _ _ _ _)
      refine dimWF_trans _ _ _ ?_ (hstep _ _ _ _ _)
      refine dimWF_trans _ _ _ ?_ (hstep _ _ _ _ _)
      exact dimWF_setTile b i j _

theorem finalValueCalc_finR : ∀ f b i j k l,
    finR (b.get k l) ((finalValueCalc f b i j).get k l) := by
  intro f
  induction f with
  | zero => intro b i j k l; exact finR_refl _
  | succ f ih =>
    intro b i j k l
    have hstep : ∀ (c : Board) (k' l' : Nat) (cond : Prop) (inst : Decidable cond),
        finR (c.get k l) ((if cond then finalValueCalc f c k' l' else c).get k l) := by
      intro c k' l' cond inst
      split
      · exact ih c k' l' k l
      · exact finR_refl _
    rw [finalValueCalc]
    split
    · exact finR_refl _
    · rename_i htr
      dsimp only
      have hb1 : finR (b.get k l)
          ((b.setTile i j { b.get i j with state := (b.get i j).state - 10, final_calc := true }).get k l) := by
        rcases Board.get_setTile_cases b i j k l
            { b.get i j with state := (b.get i j).state - 10, final_calc := true } with h | ⟨h, rfl, rfl⟩
        · exact Or.inl h
        · exact Or.inr ⟨by simpa using htr, h⟩
      refine finR_trans _ _ _ ?_ (hstep _ _ _ _ _)
      refine finR_trans _ _ _ ?_ (hstep _ _ _ _ _)
      refine finR_trans _ _ _ ?_ (hstep _ _ _ _ _)
      refine finR_trans _ _ _ ?_ (hstep _ _ _ _ _)
      exact hb1

-- ### Corollaries of the effect relations

theorem covR_cov_mono (t u : Tile) (h : covR t u) (hc : t.cov = false) :
    u.cov = false := by
  rcases h with rfl | rfl
  · exact hc
  · rfl

theorem covR_state_eq (t u : Tile) (h : covR t u) : u.state = t.state := by
  rcases h with rfl | rfl <;> rfl

theorem covR_flagged_eq (t u : Tile) (h : covR t u) : u.flagged = t.flagged := by
  rcases h with rfl | rfl <;> rfl

theorem trigR_mono_true (t u : Tile) (h : trigR t u) (ht : t.triggered = true) :
    u.triggered = true := by
  rcases h with rfl | ⟨h0, rfl⟩
  · exact ht
  · rfl

theorem trigR_state_eq (t u : Tile) (h : trigR t u) : u.state = t.state := by
  rcases h with rfl | ⟨h0, rfl⟩ <;> rfl

theorem trigR_flagged_eq (t u : Tile) (h : trigR t u) : u.flagged = t.flagged := by
  rcases h with rfl | ⟨h0, rfl⟩ <;> rfl

theorem trigR_cov_of_new (t u : Tile) (h : trigR t u) (h0 : t.triggered = false)
    (h1 : u.triggered = true) : u.cov = false := by
  rcases h with rfl | ⟨h2, rfl⟩
  · rw [h0] at h1; cases h1
  · rfl

theorem tmpR_cov_eq (t u : Tile) (h : tmpR t u) : u.cov = t.cov := by
  rcases h with rfl | ⟨h0, s, rfl⟩ <;> rfl

theorem tmpR_flagged_eq (t u : Tile) (h : tmpR t u) : u.flagged = t.flagged := by
  rcases h with rfl | ⟨h0, s, rfl⟩ <;> rfl

theorem tmpR_final_eq (t u : Tile) (h : tmpR t u) : u.final_calc = t.final_calc := by
  rcases h with rfl | ⟨h0, s, rfl⟩ <;> rfl

theorem tmpR_mono_true (t u : Tile) (h : tmpR t u) (ht : t.tmp_calc = true) :
    u.tmp_calc = true := by
  rcases h with rfl | ⟨h0, s, rfl⟩
  · exact ht
  · rfl

theorem finR_mono_true (t u : Tile) (h : finR t u) (ht : t.final_calc = true) :
    u.final_calc = true := by
  rcases h with rfl | ⟨h0, rfl⟩
  · exact ht
  · rfl

theorem finR_state_of_new (t u : Tile) (h : finR t u) (h0 : t.final_calc = false)
    (h1 : u.final_calc = true) : u.state = t.state - 10 := by
  rcases h with rfl | ⟨h2, rfl⟩
  · rw [h0] at h1; cases h1
  · rfl

theorem finR_cov_eq (t u : Tile) (h : finR t u) : u.cov = t.cov := by
  rcases h with rfl | ⟨h0, rfl⟩ <;> rfl

theorem finR_flagged_eq (t u : Tile) (h : finR t u) : u.flagged = t.flagged := by
  rcases h with rfl | ⟨h0, rfl⟩ <;> rfl

-- ### Guarded-call (`ite`) variants of the effect lemmas

theorem uncoverNb_covR (f : Nat) (c : Board) (k' l' k l : Nat) :
    covR (c.get k l) ((uncoverNb (uncover f) c k' l').get k l) := by
  unfold uncoverNb
  split
  · exact uncover_covR f c k' l' k l
  · split
    · rcases Board.get_setTile_cases c k' l' k l _ with h | ⟨h, rfl, rfl⟩
      · exact Or.inl h
      · exact Or.inr h
    · exact covR_refl _

theorem uncoverNb_dimWF (f : Nat) (c : Board) (k' l' : Nat) :
    dimWF c (uncoverNb (uncover f) c k' l') := by
  unfold uncoverNb
  split
  · exact uncover_dimWF f c k' l'
  · split
    · exact dimWF_setTile c k' l' _
    · exact dimWF_refl c

theorem uncoverNb_covR_ite (f : Nat) (c : Board) (k' l' k l : Nat)
    (cond : Prop) (inst : Decidable cond) :
    covR (c.get k l) ((if cond then uncoverNb (uncover f) c k' l' else c).get k l) := by
  split
  · exact uncoverNb_covR f c k' l' k l
  · exact covR_refl _

theorem uncoverNb_dimWF_ite (f : Nat) (c : Board) (k' l' : Nat)
    (cond : Prop) (inst : Decidable cond) :
    dimWF c (if cond then uncoverNb (uncover f) c k' l' else c) := by
  split
  · exact uncoverNb_dimWF f c k' l'
  · exact dimWF_refl c

theorem uncoverAll_trigR_ite (f : Nat) (c : Board) (k' l' k l : Nat)
    (cond : Prop) (inst : Decidable cond) :
    trigR (c.get k l) ((if cond then uncoverAll f c k' l' else c).get k l) := by
  split
  · exact uncoverAll_trigR f c k' l' k l
  · exact trigR_refl _

theorem uncoverAll_dimWF_ite (f : Nat) (c : Board) (k' l' : Nat)
    (cond : Prop) (inst : Decidable cond) :
    dimWF c (if cond then uncoverAll f c k' l' else c) := by
  split
  · exact uncoverAll_dimWF f c k' l'
  · exact dimWF_refl c

theorem tmpValueCalc_tmpR_ite (f : Nat) (c : Board) (k' l' k l : Nat)
    (cond : Prop) (inst : Decidable cond) :
    tmpR (c.get k l) ((if cond then tmpValueCalc f c k' l' else c).get k l) := by
  split
  · exact tmpValueCalc_tmpR f c k' l' k l
  · exact tmpR_refl _

theorem tmpValueCalc_dimWF_ite (f : Nat) (c : Board) (k' l' : Nat)
    (cond : Prop) (inst : Decidable cond) :
    dimWF c (if cond then tmpValueCalc f c k' l' else c) := by
  split
  · exact tmpValueCalc_dimWF f c k' l'
  · exact dimWF_refl c

theorem finalValueCalc_finR_ite (f : Nat) (c : Board) (k' l' k l : Nat)
    (cond : Prop) (inst : Decidable cond) :
    finR (c.get k l) ((if cond then finalValueCalc f c k' l' else c).get k l) := by
  split
  · exact finalValueCalc_finR f c k' l' k l
  · exact finR_refl _

theorem finalValueCalc_dimWF_ite (f : Nat) (c : Board) (k' l' : Nat)
    (cond : Prop) (inst : Decidable cond) :
    dimWF c (if cond then finalValueCalc f c k' l' else c) := by
  split
  · exact finalValueCalc_dimWF f c k' l'
  · exact dimWF_refl c

-- ### Fuel-count bounds

theorem countCov_le_of_covR (b c : Board) (hx : c.x = b.x) (hy : c.y = b.y)
    (h : ∀ k l, covR (b.get k l) (c.get k l)) :
    countIdx c (fun t => t.cov) ≤ countIdx b (fun t => t.cov) := by
  apply countIdx_le_of_imp b c _ hx hy
  intro k l hk hl hc
  rcases h k l with heq | heq
  · rw [heq] at hc; exact hc
  · rw [heq] at hc; cases hc

theorem countUntrig_le_of_trigR (b c : Board) (hx : c.x = b.x) (hy : c.y = b.y)
    (h : ∀ k l, trigR (b.get k l) (c.get k l)) :
    countIdx c (fun t => !t.triggered) ≤ countIdx b (fun t => !t.triggered) := by
  apply countIdx_le_of_imp b c _ hx hy
  intro k l hk hl hc
  rcases h k l with heq | ⟨h0, heq⟩
  · rw [heq] at hc; exact hc
  · rw [heq] at hc; cases hc

theorem countUntmp_le_of_tmpR (b c : Board) (hx : c.x = b.x) (hy : c.y = b.y)
    (h : ∀ k l, tmpR (b.get k l) (c.get k l)) :
    countIdx c (fun t => !t.tmp_calc) ≤ countIdx b (fun t => !t.tmp_calc) := by
  apply countIdx_le_of_imp b c _ hx hy
  intro k l hk hl hc
  rcases h k l with heq | ⟨h0, s, heq⟩
  · rw [heq] at hc; exact hc
  · rw [heq] at hc; cases hc

theorem countUnfinal_le_of_finR (b c : Board) (hx : c.x = b.x) (hy : c.y = b.y)
    (h : ∀ k l, finR (b.get k l) (c.get k l)) :
    countIdx c (fun t => !t.final_calc) ≤ countIdx b (fun t => !t.final_calc) := by
  apply countIdx_le_of_imp b c _ hx hy
  intro k l hk hl hc
  rcases h k l with heq | ⟨h0, heq⟩
  · rw [heq] at hc; exact hc
  · rw [heq] at hc; cases hc

-- ### The clicked tile is processed when the fuel covers the board

theorem uncover_reveals (f : Nat) (b : Board) (i j : Nat) (hw : b.wf)
    (hi : i < b.x) (hj : j < b.y)
    (hf : countIdx b (fun t => t.cov) ≤ f) :
    ((uncover f b i j).get i j).cov = false := by
  by_cases hc : (b.get i j).cov = true
  · have hpos : 1 ≤ countIdx b (fun t => t.cov) :=
      countIdx_pos b _ i j hi hj hc
    cases f with
    | zero => omega
    | succ f =>
      rw [uncover, if_pos hc]
      dsimp only
      have hb1 : (b.setTile i j { b.get i j with cov := false }).get i j
          = { b.get i j with cov := false } :=
        Board.get_setTile_eq b i j _ hw hi hj
      split
      · refine covR_cov_mono _ _ (uncoverNb_covR_ite _ _ _ _ _ _ _ _) ?_
        refine covR_cov_mono _ _ (uncoverNb_covR_ite _ _ _ _ _ _ _ _) ?_
        refine covR_cov_mono _ _ (uncoverNb_covR_ite _ _ _ _ _ _ _ _) ?_
        refine covR_cov_mono _ _ (uncoverNb_covR_ite _ _ _ _ _ _ _ _) ?_
        rw [hb1]
      · rw [hb1]
  · have hcf : (b.get i j).cov = false := by
      cases h : (b.get i j).cov
      · rfl
      · exact absurd h hc
    exact covR_cov_mono _ _ (uncover_covR f b i j i j) hcf

theorem uncoverAll_triggers (f : Nat) (b : Board) (i j : Nat) (hw : b.wf)
    (hi : i < b.x) (hj : j < b.y)
    (hf : countIdx b (fun t => !t.triggered) ≤ f) :
    ((uncoverAll f b i j).get i j).triggered = true := by
  by_cases ht : (b.get i j).triggered = true
  · exact trigR_mono_true _ _ (uncoverAll_trigR f b i j i j) ht
  · have ht0 : (b.get i j).triggered = false := by
      cases h : (b.get i j).triggered
      · rfl
      · exact absurd h ht
    have hpos : 1 ≤ countIdx b (fun t => !t.triggered) :=
      countIdx_pos b _ i j hi hj (by rw [ht0]; rfl)
    cases f with
    | zero => omega
    | succ f =>
      rw [uncoverAll, if_neg ht]
      dsimp only
      have hb1 : (b.setTile i j { b.get i j with cov := false, triggered := true }).get i j
          = { b.get i j with cov := false, triggered := true } :=
        Board.get_setTile_eq b i j _ hw hi hj
      refine trigR_mono_true _ _ (uncoverAll_trigR_ite _ _ _ _ _ _ _ _) ?_
      refine trigR_mono_true _ _ (uncoverAll_trigR_ite _ _ _ _ _ _ _ _) ?_
      refine trigR_mono_true _ _ (uncoverAll_trigR_ite _ _ _ _ _ _ _ _) ?_
      refine trigR_mono_true _ _ (uncoverAll_trigR_ite _ _ _ _ _ _ _ _) ?_
      rw [hb1]

-- ### Completeness of `uncoverAll`: the game-over cascade reaches the
-- whole 4-connected grid

theorem uncoverAll_complete : ∀ f b i j, b.wf → i < b.x → j < b.y →
    countIdx b (fun t => !t.triggered) ≤ f →
    (((uncoverAll f b i j).get i j).triggered = true) ∧
    (∀ k l, k < b.x → l < b.y → (b.get k l).triggered = false →
      ((uncoverAll f b i j).get k l).triggered = true →
      ((1 ≤ k → ((uncoverAll f b i j).get (k - 1) l).triggered = true) ∧
       (k + 1 < b.x → ((uncoverAll f b i j).get (k + 1) l).triggered = true) ∧
       (1 ≤ l → ((uncoverAll f b i j).get k (l - 1)).triggered = true) ∧
       (l + 1 < b.y → ((uncoverAll f b i j).get k (l + 1)).triggered = true))) := by
  intro f
  induction f with
  | zero =>
    intro b i j hw hi hj hf
    constructor
    · by_cases ht : (b.get i j).triggered = true
      · exact ht
      · have ht0 : (b.get i j).triggered = false := by
          cases h : (b.get i j).triggered
          · rfl
          · exact absurd h ht
        have := countIdx_pos b (fun t => !t.triggered) i j hi hj (by simp [ht0])
        omega
    · intro k l hk hl h0 h1
      rw [uncoverAll] at h1
      rw [h0] at h1
      cases h1
  | succ f ih =>
    intro b i j hw hi hj hf
    by_cases ht : (b.get i j).triggered = true
    · constructor
      · rw [uncoverAll, if_pos ht]; exact ht
      · intro k l hk hl h0 h1
        rw [uncoverAll, if_pos ht] at h1
        rw [h0] at h1
        cases h1
    · have ht0 : (b.get i j).triggered = false := by
        cases h : (b.get i j).triggered
        · rfl
        · exact absurd h ht
      rw [uncoverAll, if_neg ht]
      dsimp only
      set t1 : Tile := { b.get i j with cov := false, triggered := true } with ht1
      set b1 := b.setTile i j t1 with hb1
      set b2 := if 1 ≤ i then uncoverAll f b1 (i - 1) j else b1 with hb2
      set b3 := if i + 1 < b.x then uncoverAll f b2 (i + 1) j else b2 with hb3
      set b4 := if 1 ≤ j then uncoverAll f b3 i (j - 1) else b3 with hb4
      set b5 := if j + 1 < b.y then uncoverAll f b4 i (j + 1) else b4 with hb5
      -- dimensions and well-formedness of the intermediate boards
      have d1 : dimWF b b1 := dimWF_setTile b i j t1
      have d2 : dimWF b1 b2 := by rw [hb2]; exact uncoverAll_dimWF_ite f b1 (i - 1) j _ _
      have d3 : dimWF b2 b3 := by rw [hb3]; exact uncoverAll_dimWF_ite f b2 (i + 1) j _ _
      have d4 : dimWF b3 b4 := by rw [hb4]; exact uncoverAll_dimWF_ite f b3 i (j - 1) _ _
      have d5 : dimWF b4 b5 := by rw [hb5]; exact uncoverAll_dimWF_ite f b4 i (j + 1) _ _
      have db2 : dimWF b b2 := dimWF_trans _ _ _ d1 d2
      have db3 : dimWF b b3 := dimWF_trans _ _ _ db2 d3
      have db4 : dimWF b b4 := dimWF_trans _ _ _ db3 d4
      -- per-tile effects between consecutive boards
      have r2 : ∀ k l, trigR (b1.get k l) (b2.get k l) := by
        intro k l; rw [hb2]; exact uncoverAll_trigR_ite f b1 (i - 1) j k l _ _
      have r3 : ∀ k l, trigR (b2.get k l) (b3.get k l) := by
        intro k l; rw [hb3]; exact uncoverAll_trigR_ite f b2 (i + 1) j k l _ _
      have r4 : ∀ k l, trigR (b3.get k l) (b4.get k l) := by
        intro k l; rw [hb4]; exact uncoverAll_trigR_ite f b3 i (j - 1) k l _ _
      have r5 : ∀ k l, trigR (b4.get k l) (b5.get k l) := by
        intro k l; rw [hb5]; exact uncoverAll_trigR_ite f b4 i (j + 1) k l _ _
      -- monotone propagation of `triggered` to the final board
      have m3 : ∀ k l, (b3.get k l).triggered = true → (b5.get k l).triggered = true := by
        intro k l h
        exact trigR_mono_true _ _ (r5 k l) (trigR_mono_true _ _ (r4 k l) h)
      have m2 : ∀ k l, (b2.get k l).triggered = true → (b5.get k l).triggered = true := by
        intro k l h
        exact m3 k l (trigR_mono_true _ _ (r3 k l) h)
      have m4 : ∀ k l, (b4.get k l).triggered = true → (b5.get k l).triggered = true := by
        intro k l h
        exact trigR_mono_true _ _ (r5 k l) h
      -- fuel bounds
      have c1 : countIdx b1 (fun t => !t.triggered) ≤ f := by
        have h := countIdx_setTile b (fun t => !t.triggered) i j t1 hw hi hj
        have e1 : (if (fun t => !t.triggered) (b.get i j) then 1 else 0) = 1 := by
          simp [ht0]
        have e2 : (if (fun t => !t.triggered) t1 then 1 else 0) = 0 := by
          simp [ht1]
        rw [e1, e2] at h
        rw [hb1]
        omega
      have c2 : countIdx b2 (fun t => !t.triggered) ≤ f := by
        refine le_trans (countUntrig_le_of_trigR b1 b2 d2.1 d2.2.1 r2) c1
      have c3 : countIdx b3 (fun t => !t.triggered) ≤ f := by
        refine le_trans (countUntrig_le_of_trigR b2 b3 d3.1 d3.2.1 r3) c2
      have c4 : countIdx b4 (fun t => !t.triggered) ≤ f := by
        refine le_trans (countUntrig_le_of_trigR b3 b4 d4.1 d4.2.1 r4) c3
      -- the freshly visited tile
      have g1 : b1.get i j = t1 := Board.get_setTile_eq b i j t1 hw hi hj
      constructor
      · -- the clicked tile ends triggered
        refine m2 i j ?_
        refine trigR_mono_true _ _ (r2 i j) ?_
        rw [g1]
      · intro k l hk hl h0 h5
        by_cases hkl : k = i ∧ l = j
        · -- the clicked tile: each existing side neighbour is triggered by
          -- its own recursive call (or trivially when absent)
          obtain ⟨rfl, rfl⟩ := hkl
          refine ⟨?_, ?_, ?_, ?_⟩
          · intro hki
            have hb2e : b2 = uncoverAll f b1 (k - 1) l := by rw [hb2, if_pos hki]
            have := (ih b1 (k - 1) l (d1.2.2 hw) (by rw [d1.1]; omega)
              (by rw [d1.2.1]; omega) c1).1
            rw [← hb2e] at this
            exact m2 _ _ this
          · intro hki
            have hb3e : b3 = uncoverAll f b2 (k + 1) l := by rw [hb3, if_pos hki]
            have := (ih b2 (k + 1) l (db2.2.2 hw) (by rw [db2.1]; omega)
              (by rw [db2.2.1]; omega) c2).1
            rw [← hb3e] at this
            exact m3 _ _ this
          · intro hlj
            have hb4e : b4 = uncoverAll f b3 k (l - 1) := by rw [hb4, if_pos hlj]
            have := (ih b3 k (l - 1) (db3.2.2 hw) (by rw [db3.1]; omega)
              (by rw [db3.2.1]; omega) c3).1
            rw [← hb4e] at this
            exact m4 _ _ this
          · intro hlj
            have hb5e : b5 = uncoverAll f b4 k (l + 1) := by rw [hb5, if_pos hlj]
            have := (ih b4 k (l + 1) (db4.2.2 hw) (by rw [db4.1]; omega)
              (by rw [db4.2.1]; omega) c4).1
            rw [← hb5e] at this
            exact this
        · -- any other freshly triggered tile was triggered inside one of
          -- the four recursive calls; that call's closure applies
          have g1k : b1.get k l = b.get k l := Board.get_setTile_ne b i j k l t1 hkl
          have h10 : (b1.get k l).triggered = false := by rw [g1k]; exact h0
          by_cases h2t : (b2.get k l).triggered = true
          · -- triggered during the first recursive call
            have hcond : 1 ≤ i := by
              by_contra hcond
              rw [hb2, if_neg hcond] at h2t
              rw [h10] at h2t
              cases h2t
            have hb2e : b2 = uncoverAll f b1 (i - 1) j := by rw [hb2, if_pos hcond]
            have hcl := (ih b1 (i - 1) j (d1.2.2 hw) (by rw [d1.1]; omega)
              (by rw [d1.2.1]; omega) c1).2 k l
              (by rw [d1.1]; exact hk) (by rw [d1.2.1]; exact hl) h10
              (by rw [← hb2e]; exact h2t)
            rw [← hb2e] at hcl
            exact ⟨fun h => m2 _ _ (hcl.1 (by omega)),
                   fun h => m2 _ _ (hcl.2.1 (by rw [d1.1]; exact h)),
                   fun h => m2 _ _ (hcl.2.2.1 (by omega)),
                   fun h => m2 _ _ (hcl.2.2.2 (by rw [d1.2.1]; exact h))⟩
          · have h20 : (b2.get k l).triggered = false := by
              cases h : (b2.get k l).triggered
              · rfl
              · exact absurd h h2t
            by_cases h3t : (b3.get k l).triggered = true
            · have hcond : i + 1 < b.x := by
                by_contra hcond
                rw [hb3, if_neg hcond] at h3t
                rw [h20] at h3t
                cases h3t
              have hb3e : b3 = uncoverAll f b2 (i + 1) j := by rw [hb3, if_pos hcond]
              have hcl := (ih b2 (i + 1) j (db2.2.2 hw) (by rw [db2.1]; omega)
                (by rw [db2.2.1]; omega) c2).2 k l
                (by rw [db2.1]; exact hk) (by rw [db2.2.1]; exact hl) h20
                (by rw [← hb3e]; exact h3t)
              rw [← hb3e] at hcl
              exact ⟨fun h => m3 _ _ (hcl.1 (by omega)),
                     fun h => m3 _ _ (hcl.2.1 (by rw [db2.1]; exact h)),
                     fun h => m3 _ _ (hcl.2.2.1 (by omega)),
                     fun h => m3 _ _ (hcl.2.2.2 (by rw [db2.2.1]; exact h))⟩
            · have h30 : (b3.get k l).triggered = false := by
                cases h : (b3.get k l).triggered
                · rfl
                · exact absurd h h3t
              by_cases h4t : (b4.get k l).triggered = true
              · have hcond : 1 ≤ j := by
                  by_contra hcond
                  rw [hb4, if_neg hcond] at h4t
                  rw [h30] at h4t
                  cases h4t
                have hb4e : b4 = uncoverAll f b3 i (j - 1) := by rw [hb4, if_pos hcond]
                have hcl := (ih b3 i (j - 1) (db3.2.2 hw) (by rw [db3.1]; omega)
                  (by rw [db3.2.1]; omega) c3).2 k l
                  (by rw [db3.1]; exact hk) (by rw [db3.2.1]; exact hl) h30
                  (by rw [← hb4e]; exact h4t)
                rw [← hb4e] at hcl
                exact ⟨fun h => m4 _ _ (hcl.1 (by omega)),
                       fun h => m4 _ _ (hcl.2.1 (by rw [db3.1]; exact h)),
                       fun h => m4 _ _ (hcl.2.2.1 (by omega)),
                       fun h => m4 _ _ (hcl.2.2.2 (by rw [db3.2.1]; exact h))⟩
              · have h40 : (b4.get k l).triggered = false := by
                  cases h : (b4.get k l).triggered
                  · rfl
                  · exact absurd h h4t
                have hcond : j + 1 < b.y := by
                  by_contra hcond
                  rw [hb5, if_neg hcond] at h5
                  rw [h40] at h5
                  cases h5
                have hb5e : b5 = uncoverAll f b4 i (j + 1) := by rw [hb5, if_pos hcond]
                have hcl := (ih b4 i (j + 1) (db4.2.2 hw) (by rw [db4.1]; omega)
                  (by rw [db4.2.1]; omega) c4).2 k l
                  (by rw [db4.1]; exact hk) (by rw [db4.2.1]; exact hl) h40
                  (by rw [← hb5e]; exact h5)
                rw [← hb5e] at hcl
                exact ⟨fun h => hcl.1 (by omega),
                       fun h => hcl.2.1 (by rw [db4.1]; exact h),
                       fun h => hcl.2.2.1 (by omega),
                       fun h => hcl.2.2.2 (by rw [db4.2.1]; exact h)⟩

-- ### Connectivity of the grid under side-neighbour steps

theorem grid_reach (x y : Nat) (S : Nat → Nat → Prop) (i j : Nat)
    (hi : i < x) (hj : j < y) (hS : S i j)
    (closed : ∀ k l, k < x → l < y → S k l →
      (1 ≤ k → S (k - 1) l) ∧ (k + 1 < x → S (k + 1) l) ∧
      (1 ≤ l → S k (l - 1)) ∧ (l + 1 < y → S k (l + 1))) :
    ∀ k l, k < x → l < y → S k l := by
  have hdown : ∀ d, d ≤ i → S (i - d) j := by
    intro d
    induction d with
    | zero => intro _; simpa using hS
    | succ d ihd =>
      intro hd
      have h1 : S (i - d) j := ihd (by omega)
      have h2 := (closed (i - d) j (by omega) hj h1).1 (by omega)
      have : i - d - 1 = i - (d + 1) := by omega
      rwa [this] at h2
  have hup : ∀ d, i + d < x → S (i + d) j := by
    intro d
    induction d with
    | zero => intro _; simpa using hS
    | succ d ihd =>
      intro hd
      have h1 : S (i + d) j := ihd (by omega)
      have h2 := (closed (i + d) j (by omega) hj h1).2.1 (by omega)
      have : i + d + 1 = i + (d + 1) := by omega
      rwa [this] at h2
  have hcol : ∀ k, k < x → S k j := by
    intro k hk
    rcases le_or_lt k i with h | h
    · have := hdown (i - k) (by omega)
      have e : i - (i - k) = k := by omega
      rwa [e] at this
    · have := hup (k - i) (by omega)
      have e : i + (k - i) = k := by omega
      rwa [e] at this
  intro k l hk hl
  have hkj : S k j := hcol k hk
  have hldown : ∀ d, d ≤ j → S k (j - d) := by
    intro d
    induction d with
    | zero => intro _; simpa using hkj
    | succ d ihd =>
      intro hd
      have h1 : S k (j - d) := ihd (by omega)
      have h2 := (closed k (j - d) hk (by omega) h1).2.2.1 (by omega)
      have : j - d - 1 = j - (d + 1) := by omega
      rwa [this] at h2
  have hlup : ∀ d, j + d < y → S k (j + d) := by
    intro d
    induction d with
    | zero => intro _; simpa using hkj
    | succ d ihd =>
      intro hd
      have h1 : S k (j + d) := ihd (by omega)
      have h2 := (closed k (j + d) hk (by omega) h1).2.2.2 (by omega)
      have : j + d + 1 = j + (d + 1) := by omega
      rwa [this] at h2
  rcases le_or_lt l j with h | h
  · have := hldown (j - l) (by omega)
    have e : j - (j - l) = l := by omega
    rwa [e] at this
  · have := hlup (l - j) (by omega)
    have e : j + (l - j) = l := by omega
    rwa [e] at this

-- ### Completeness of `uncover` on an all-zero board

theorem uncover_complete : ∀ f b i j, b.wf → i < b.x → j < b.y →
    (∀ k l, k < b.x → l < b.y → (b.get k l).state = 0) →
    countIdx b (fun t => t.cov) ≤ f →
    (((uncover f b i j).get i j).cov = false) ∧
    (∀ k l, k < b.x → l < b.y → (b.get k l).cov = true →
      ((uncover f b i j).get k l).cov = false →
      ((1 ≤ k → ((uncover f b i j).get (k - 1) l).cov = false) ∧
       (k + 1 < b.x → ((uncover f b i j).get (k + 1) l).cov = false) ∧
       (1 ≤ l → ((uncover f b i j).get k (l - 1)).cov = false) ∧
       (l + 1 < b.y → ((uncover f b i j).get k (l + 1)).cov = false))) := by
  intro f
  induction f with
  | zero =>
    intro b i j hw hi hj hz hf
    constructor
    · by_cases hc : (b.get i j).cov = true
      · have := countIdx_pos b (fun t => t.cov) i j hi hj (by simp [hc])
        omega
      · rw [uncover]
        cases h : (b.get i j).cov
        · rfl
        · exact absurd h hc
    · intro k l hk hl h0 h1
      rw [uncover] at h1
      rw [h0] at h1
      cases h1
  | succ f ih =>
    intro b i j hw hi hj hz hf
    by_cases hc : (b.get i j).cov = true
    · rw [uncover, if_pos hc]
      dsimp only
      set t1 : Tile := { b.get i j with cov := false } with ht1
      set b1 := b.setTile i j t1 with hb1
      have g1 : b1.get i j = t1 := Board.get_setTile_eq b i j t1 hw hi hj
      have d1 : dimWF b b1 := dimWF_setTile b i j t1
      have hz1 : ∀ k l, k < b1.x → l < b1.y → (b1.get k l).state = 0 := by
        intro k l hk hl
        rcases Board.get_setTile_cases b i j k l t1 with h | ⟨h, rfl, rfl⟩
        · rw [h]; exact hz k l (by rw [← d1.1]; exact hk) (by rw [← d1.2.1]; exact hl)
        · rw [h, ht1]; exact hz _ _ hi hj
      have hs1 : (b1.get i j).state = 0 := hz1 i j (by rw [d1.1]; exact hi) (by rw [d1.2.1]; exact hj)
      rw [if_pos hs1]
      set b2 := if 1 ≤ i then uncoverNb (uncover f) b1 (i - 1) j else b1 with hb2
      set b3 := if i + 1 < b.x then uncoverNb (uncover f) b2 (i + 1) j else b2 with hb3
      set b4 := if 1 ≤ j then uncoverNb (uncover f) b3 i (j - 1) else b3 with hb4
      set b5 := if j + 1 < b.y then uncoverNb (uncover f) b4 i (j + 1) else b4 with hb5
      have d2 : dimWF b1 b2 := by rw [hb2]; exact uncoverNb_dimWF_ite f b1 (i - 1) j _ _
      have d3 : dimWF b2 b3 := by rw [hb3]; exact uncoverNb_dimWF_ite f b2 (i + 1) j _ _
      have d4 : dimWF b3 b4 := by rw [hb4]; exact uncoverNb_dimWF_ite f b3 i (j - 1) _ _
      have d5 : dimWF b4 b5 := by rw [hb5]; exact uncoverNb_dimWF_ite f b4 i (j + 1) _ _
      have db2 : dimWF b b2 := dimWF_trans _ _ _ d1 d2
      have db3 : dimWF b b3 := dimWF_trans _ _ _ db2 d3
      have db4 : dimWF b b4 := dimWF_trans _ _ _ db3 d4
      have r2 : ∀ k l, covR (b1.get k l) (b2.get k l) := by
        intro k l; rw [hb2]; exact uncoverNb_covR_ite f b1 (i - 1) j k l _ _
      have r3 : ∀ k l, covR (b2.get k l) (b3.get k l) := by
        intro k l; rw [hb3]; exact uncoverNb_covR_ite f b2 (i + 1) j k l _ _
      have r4 : ∀ k l, covR (b3.get k l) (b4.get k l) := by
        intro k l; rw [hb4]; exact uncoverNb_covR_ite f b3 i (j - 1) k l _ _
      have r5 : ∀ k l, covR (b4.get k l) (b5.get k l) := by
        intro k l; rw [hb5]; exact uncoverNb_covR_ite f b4 i (j + 1) k l _ _
      have hz2 : ∀ k l, k < b2.x → l < b2.y → (b2.get k l).state = 0 := by
        intro k l hk hl
        rw [covR_state_eq _ _ (r2 k l)]
        exact hz1 k l (by rw [← d2.1]; exact hk) (by rw [← d2.2.1]; exact hl)
      have hz3 : ∀ k l, k < b3.x → l < b3.y → (b3.get k l).state = 0 := by
        intro k l hk hl
        rw [covR_state_eq _ _ (r3 k l)]
        exact hz2 k l (by rw [← d3.1]; exact hk) (by rw [← d3.2.1]; exact hl)
      have hz4 : ∀ k l, k < b4.x → l < b4.y → (b4.get k l).state = 0 := by
        intro k l hk hl
        rw [covR_state_eq _ _ (r4 k l)]
        exact hz3 k l (by rw [← d4.1]; exact hk) (by rw [← d4.2.1]; exact hl)
      -- the recursive calls behind each `uncoverNb` on a zero board
      have e2 : 1 ≤ i → b2 = uncover f b1 (i - 1) j := by
        intro hcond
        rw [hb2, if_pos hcond]
        unfold uncoverNb
        rw [if_pos (hz1 (i - 1) j (by rw [d1.1]; omega) (by rw [d1.2.1]; omega))]
      have e3 : i + 1 < b.x → b3 = uncover f b2 (i + 1) j := by
        intro hcond
        rw [hb3, if_pos hcond]
        unfold uncoverNb
        rw [if_pos (hz2 (i + 1) j (by rw [db2.1]; omega) (by rw [db2.2.1]; omega))]
      have e4 : 1 ≤ j → b4 = uncover f b3 i (j - 1) := by
        intro hcond
        rw [hb4, if_pos hcond]
        unfold uncoverNb
        rw [if_pos (hz3 i (j - 1) (by rw [db3.1]; omega) (by rw [db3.2.1]; omega))]
      have e5 : j + 1 < b.y → b5 = uncover f b4 i (j + 1) := by
        intro hcond
        rw [hb5, if_pos hcond]
        unfold uncoverNb
        rw [if_pos (hz4 i (j + 1) (by rw [db4.1]; omega) (by rw [db4.2.1]; omega))]
      -- monotone propagation of `cov = false` to the final board
      have m3 : ∀ k l, (b3.get k l).cov = false → (b5.get k l).cov = false := by
        intro k l h
        exact covR_cov_mono _ _ (r5 k l) (covR_cov_mono _ _ (r4 k l) h)
      have m2 : ∀ k l, (b2.get k l).cov = false → (b5.get k l).cov = false := by
        intro k l h
        exact m3 k l (covR_cov_mono _ _ (r3 k l) h)
      have m4 : ∀ k l, (b4.get k l).cov = false → (b5.get k l).cov = false := by
        intro k l h
        exact covR_cov_mono _ _ (r5 k l) h
      -- fuel bounds
      have c1 : countIdx b1 (fun t => t.cov) ≤ f := by
        have h := countIdx_setTile b (fun t => t.cov) i j t1 hw hi hj
        have e1 : (if (fun t => t.cov) (b.get i j) then 1 else 0) = 1 := by
          simp [hc]
        have e2 : (if (fun t => t.cov) t1 then 1 else 0) = 0 := by
          simp [ht1]
        rw [e1, e2] at h
        rw [hb1]
        omega
      have c2 : countIdx b2 (fun t => t.cov) ≤ f :=
        le_trans (countCov_le_of_covR b1 b2 d2.1 d2.2.1 r2) c1
      have c3 : countIdx b3 (fun t => t.cov) ≤ f :=
        le_trans (countCov_le_of_covR b2 b3 d3.1 d3.2.1 r3) c2
      have c4 : countIdx b4 (fun t => t.cov) ≤ f :=
        le_trans (countCov_le_of_covR b3 b4 d4.1 d4.2.1 r4) c3
      constructor
      · -- the clicked tile ends revealed
        refine m2 i j ?_
        refine covR_cov_mono _ _ (r2 i j) ?_
        rw [g1]
      · intro k l hk hl h0 h5
        by_cases hkl : k = i ∧ l = j
        · obtain ⟨rfl, rfl⟩ := hkl
          refine ⟨?_, ?_, ?_, ?_⟩
          · intro hki
            have := (ih b1 (k - 1) l (d1.2.2 hw) (by rw [d1.1]; omega)
              (by rw [d1.2.1]; omega) hz1 c1).1
            rw [← e2 hki] at this
            exact m2 _ _ this
          · intro hki
            have := (ih b2 (k + 1) l (db2.2.2 hw) (by rw [db2.1]; omega)
              (by rw [db2.2.1]; omega) hz2 c2).1
            rw [← e3 hki] at this
            exact m3 _ _ this
          · intro hlj
            have := (ih b3 k (l - 1) (db3.2.2 hw) (by rw [db3.1]; omega)
              (by rw [db3.2.1]; omega) hz3 c3).1
            rw [← e4 hlj] at this
            exact m4 _ _ this
          · intro hlj
            have := (ih b4 k (l + 1) (db4.2.2 hw) (by rw [db4.1]; omega)
              (by rw [db4.2.1]; omega) hz4 c4).1
            rw [← e5 hlj] at this
            exact this
        · have g1k : b1.get k l = b.get k l := Board.get_setTile_ne b i j k l t1 hkl
          have h10 : (b1.get k l).cov = true := by rw [g1k]; exact h0
          by_cases h2t : (b2.get k l).cov = false
          · have hcond : 1 ≤ i := by
              by_contra hcond
              rw [hb2, if_neg hcond] at h2t
              rw [h10] at h2t
              cases h2t
            have hcl := (ih b1 (i - 1) j (d1.2.2 hw) (by rw [d1.1]; omega)
              (by rw [d1.2.1]; omega) hz1 c1).2 k l
              (by rw [d1.1]; exact hk) (by rw [d1.2.1]; exact hl) h10
              (by rw [← e2 hcond]; exact h2t)
            rw [← e2 hcond] at hcl
            exact ⟨fun h => m2 _ _ (hcl.1 (by omega)),
                   fun h => m2 _ _ (hcl.2.1 (by rw [d1.1]; exact h)),
                   fun h => m2 _ _ (hcl.2.2.1 (by omega)),
                   fun h => m2 _ _ (hcl.2.2.2 (by rw [d1.2.1]; exact h))⟩
          · have h20 : (b2.get k l).cov = true := by
              cases h : (b2.get k l).cov
              · exact absurd h h2t
              · rfl
            by_cases h3t : (b3.get k l).cov = false
            · have hcond : i + 1 < b.x := by
                by_contra hcond
                rw [hb3, if_neg hcond] at h3t
                rw [h20] at h3t
                cases h3t
              have hcl := (ih b2 (i + 1) j (db2.2.2 hw) (by rw [db2.1]; omega)
                (by rw [db2.2.1]; omega) hz2 c2).2 k l
                (by rw [db2.1]; exact hk) (by rw [db2.2.1]; exact hl) h20
                (by rw [← e3 hcond]; exact h3t)
              rw [← e3 hcond] at hcl
              exact ⟨fun h => m3 _ _ (hcl.1 (by omega)),
                     fun h => m3 _ _ (hcl.2.1 (by rw [db2.1]; exact h)),
                     fun h => m3 _ _ (hcl.2.2.1 (by omega)),
                     fun h => m3 _ _ (hcl.2.2.2 (by rw [db2.2.1]; exact h))⟩
            · have h30 : (b3.get k l).cov = true := by
                cases h : (b3.get k l).cov
                · exact absurd h h3t
                · rfl
              by_cases h4t : (b4.get k l).cov = false
              · have hcond : 1 ≤ j := by
                  by_contra hcond
                  rw [hb4, if_neg hcond] at h4t
                  rw [h30] at h4t
                  cases h4t
                have hcl := (ih b3 i (j - 1) (db3.2.2 hw) (by rw [db3.1]; omega)
                  (by rw [db3.2.1]; omega) hz3 c3).2 k l
                  (by rw [db3.1]; exact hk) (by rw [db3.2.1]; exact hl) h30
                  (by rw [← e4 hcond]; exact h4t)
                rw [← e4 hcond] at hcl
                exact ⟨fun h => m4 _ _ (hcl.1 (by omega)),
                       fun h => m4 _ _ (hcl.2.1 (by rw [db3.1]; exact h)),
                       fun h => m4 _ _ (hcl.2.2.1 (by omega)),
                       fun h => m4 _ _ (hcl.2.2.2 (by rw [db3.2.1]; exact h))⟩
              · have h40 : (b4.get k l).cov = true := by
                  cases h : (b4.get k l).cov
                  · exact absurd h h4t
                  · rfl
                have hcond : j + 1 < b.y := by
                  by_contra hcond
                  rw [hb5, if_neg hcond] at h5
                  rw [h40] at h5
                  cases h5
                have hcl := (ih b4 i (j + 1) (db4.2.2 hw) (by rw [db4.1]; omega)
                  (by rw [db4.2.1]; omega) hz4 c4).2 k l
                  (by rw [db4.1]; exact hk) (by rw [db4.2.1]; exact hl) h40
                  (by rw [← e5 hcond]; exact h5)
                rw [← e5 hcond] at hcl
                exact ⟨fun h => hcl.1 (by omega),
                       fun h => hcl.2.1 (by rw [db4.1]; exact h),
                       fun h => hcl.2.2.1 (by omega),
                       fun h => hcl.2.2.2 (by rw [db4.2.1]; exact h)⟩
    · have hc0 : (b.get i j).cov = false := by
        cases h : (b.get i j).cov
        · rfl
        · exact absurd h hc
      rw [uncover, if_neg hc]
      exact ⟨hc0, by intro k l hk hl h0 h1; rw [h0] at h1; cases h1⟩

-- ### Completeness of `tmpValueCalc`

theorem tmpValueCalc_complete : ∀ f b i j, b.wf → i < b.x → j < b.y →
    countIdx b (fun t => !t.tmp_calc) ≤ f →
    (((tmpValueCalc f b i j).get i j).tmp_calc = true) ∧
    (∀ k l, k < b.x → l < b.y → (b.get k l).tmp_calc = false →
      ((tmpValueCalc f b i j).get k l).tmp_calc = true →
      ((1 ≤ k → ((tmpValueCalc f b i j).get (k - 1) l).tmp_calc = true) ∧
       (k + 1 < b.x → ((tmpValueCalc f b i j).get (k + 1) l).tmp_calc = true) ∧
       (1 ≤ l → ((tmpValueCalc f b i j).get k (l - 1)).tmp_calc = true) ∧
       (l + 1 < b.y → ((tmpValueCalc f b i j).get k (l + 1)).tmp_calc = true))) := by
  intro f
  induction f with
  | zero =>
    intro b i j hw hi hj hf
    constructor
    · by_cases ht : (b.get i j).tmp_calc = true
      · exact ht
      · have ht0 : (b.get i j).tmp_calc = false := by
          cases h : (b.get i j).tmp_calc
          · rfl
          · exact absurd h ht
        have := countIdx_pos b (fun t => !t.tmp_calc) i j hi hj (by simp [ht0])
        omega
    · intro k l hk hl h0 h1
      rw [tmpValueCalc] at h1
      rw [h0] at h1
      cases h1
  | succ f ih =>
    intro b i j hw hi hj hf
    by_cases ht : (b.get i j).tmp_calc = true
    · constructor
      · rw [tmpValueCalc, if_pos ht]; exact ht
      · intro k l hk hl h0 h1
        rw [tmpValueCalc, if_pos ht] at h1
        rw [h0] at h1
        cases h1
    · have ht0 : (b.get i j).tmp_calc = false := by
        cases h : (b.get i j).tmp_calc
        · rfl
        · exact absurd h ht
      rw [tmpValueCalc, if_neg ht]
      dsimp only
      set t1 : Tile := { b.get i j with state := valueCalc b i j, tmp_calc := true } with ht1
      set b1 := b.setTile i j t1 with hb1
      set b2 := if 1 ≤ i then tmpValueCalc f b1 (i - 1) j else b1 with hb2
      set b3 := if i + 1 < b.x then tmpValueCalc f b2 (i + 1) j else b2 with hb3
      set b4 := if 1 ≤ j then tmpValueCalc f b3 i (j - 1) else b3 with hb4
      set b5 := if j + 1 < b.y then tmpValueCalc f b4 i (j + 1) else b4 with hb5
      have d1 : dimWF b b1 := dimWF_setTile b i j t1
      have d2 : dimWF b1 b2 := by rw [hb2]; exact tmpValueCalc_dimWF_ite f b1 (i - 1) j _ _
      have d3 : dimWF b2 b3 := by rw [hb3]; exact tmpValueCalc_dimWF_ite f b2 (i + 1) j _ _
      have d4 : dimWF b3 b4 := by rw [hb4]; exact tmpValueCalc_dimWF_ite f b3 i (j - 1) _ _
      have d5 : dimWF b4 b5 := by rw [hb5]; exact tmpValueCalc_dimWF_ite f b4 i (j + 1) _ _
      have db2 : dimWF b b2 := dimWF_trans _ _ _ d1 d2
      have db3 : dimWF b b3 := dimWF_trans _ _ _ db2 d3
      have db4 : dimWF b b4 := dimWF_trans _ _ _ db3 d4
      have r2 : ∀ k l, tmpR (b1.get k l) (b2.get k l) := by
        intro k l; rw [hb2]; exact tmpValueCalc_tmpR_ite f b1 (i - 1) j k l _ _
      have r3 : ∀ k l, tmpR (b2.get k l) (b3.get k l) := by
        intro k l; rw [hb3]; exact tmpValueCalc_tmpR_ite f b2 (i + 1) j k l _ _
      have r4 : ∀ k l, tmpR (b3.get k l) (b4.get k l) := by
        intro k l; rw [hb4]; exact tmpValueCalc_tmpR_ite f b3 i (j - 1) k l _ _
      have r5 : ∀ k l, tmpR (b4.get k l) (b5.get k l) := by
        intro k l; rw [hb5]; exact tmpValueCalc_tmpR_ite f b4 i (j + 1) k l _ _
      have m3 : ∀ k l, (b3.get k l).tmp_calc = true → (b5.get k l).tmp_calc = true := by
        intro k l h
        exact tmpR_mono_true _ _ (r5 k l) (tmpR_mono_true _ _ (r4 k l) h)
      have m2 : ∀ k l, (b2.get k l).tmp_calc = true → (b5.get k l).tmp_calc = true := by
        intro k l h
        exact m3 k l (tmpR_mono_true _ _ (r3 k l) h)
      have m4 : ∀ k l, (b4.get k l).tmp_calc = true → (b5.get k l).tmp_calc = true := by
        intro k l h
        exact tmpR_mono_true _ _ (r5 k l) h
      have c1 : countIdx b1 (fun t => !t.tmp_calc) ≤ f := by
        have h := countIdx_setTile b (fun t => !t.tmp_calc) i j t1 hw hi hj
        have e1 : (if (fun t => !t.tmp_calc) (b.get i j) then 1 else 0) = 1 := by
          simp [ht0]
        have e2 : (if (fun t => !t.tmp_calc) t1 then 1 else 0) = 0 := by
          simp [ht1]
        rw [e1, e2] at h
        rw [hb1]
        omega
      have c2 : countIdx b2 (fun t => !t.tmp_calc) ≤ f :=
        le_trans (countUntmp_le_of_tmpR b1 b2 d2.1 d2.2.1 r2) c1
      have c3 : countIdx b3 (fun t => !t.tmp_calc) ≤ f :=
        le_trans (countUntmp_le_of_tmpR b2 b3 d3.1 d3.2.1 r3) c2
      have c4 : countIdx b4 (fun t => !t.tmp_calc) ≤ f :=
        le_trans (countUntmp_le_of_tmpR b3 b4 d4.1 d4.2.1 r4) c3
      have g1 : b1.get i j = t1 := Board.get_setTile_eq b i j t1 hw hi hj
      constructor
      · refine m2 i j ?_
        refine tmpR_mono_true _ _ (r2 i j) ?_
        rw [g1]
      · intro k l hk hl h0 h5
        by_cases hkl : k = i ∧ l = j
        · obtain ⟨rfl, rfl⟩ := hkl
          refine ⟨?_, ?_, ?_, ?_⟩
          · intro hki
            have hb2e : b2 = tmpValueCalc f b1 (k - 1) l := by rw [hb2, if_pos hki]
            have := (ih b1 (k - 1) l (d1.2.2 hw) (by rw [d1.1]; omega)
              (by rw [d1.2.1]; omega) c1).1
            rw [← hb2e] at this
            exact m2 _ _ this
          · intro hki
            have hb3e : b3 = tmpValueCalc f b2 (k + 1) l := by rw [hb3, if_pos hki]
            have := (ih b2 (k + 1) l (db2.2.2 hw) (by rw [db2.1]; omega)
              (by rw [db2.2.1]; omega) c2).1
            rw [← hb3e] at this
            exact m3 _ _ this
          · intro hlj
            have hb4e : b4 = tmpValueCalc f b3 k (l - 1) := by rw [hb4, if_pos hlj]
            have := (ih b3 k (l - 1) (db3.2.2 hw) (by rw [db3.1]; omega)
              (by rw [db3.2.1]; omega) c3).1
            rw [← hb4e] at this
            exact m4 _ _ this
          · intro hlj
            have hb5e : b5 = tmpValueCalc f b4 k (l + 1) := by rw [hb5, if_pos hlj]
            have := (ih b4 k (l + 1) (db4.2.2 hw) (by rw [db4.1]; omega)
              (by rw [db4.2.1]; omega) c4).1
            rw [← hb5e] at this
            exact this
        · have g1k : b1.get k l = b.get k l := Board.get_setTile_ne b i j k l t1 hkl
          have h10 : (b1.get k l).tmp_calc = false := by rw [g1k]; exact h0
          by_cases h2t : (b2.get k l).tmp_calc = true
          · have hcond : 1 ≤ i := by
              by_contra hcond
              rw [hb2, if_neg hcond] at h2t
              rw [h10] at h2t
              cases h2t
            have hb2e : b2 = tmpValueCalc f b1 (i - 1) j := by rw [hb2, if_pos hcond]
            have hcl := (ih b1 (i - 1) j (d1.2.2 hw) (by rw [d1.1]; omega)
              (by rw [d1.2.1]; omega) c1).2 k l
              (by rw [d1.1]; exact hk) (by rw [d1.2.1]; exact hl) h10
              (by rw [← hb2e]; exact h2t)
            rw [← hb2e] at hcl
            exact ⟨fun h => m2 _ _ (hcl.1 (by omega)),
                   fun h => m2 _ _ (hcl.2.1 (by rw [d1.1]; exact h)),
                   fun h => m2 _ _ (hcl.2.2.1 (by omega)),
                   fun h => m2 _ _ (hcl.2.2.2 (by rw [d1.2.1]; exact h))⟩
          · have h20 : (b2.get k l).tmp_calc = false := by
              cases h : (b2.get k l).tmp_calc
              · rfl
              · exact absurd h h2t
            by_cases h3t : (b3.get k l).tmp_calc = true
            · have hcond : i + 1 < b.x := by
                by_contra hcond
                rw [hb3, if_neg hcond] at h3t
                rw [h20] at h3t
                cases h3t
              have hb3e : b3 = tmpValueCalc f b2 (i + 1) j := by rw [hb3, if_pos hcond]
              have hcl := (ih b2 (i + 1) j (db2.2.2 hw) (by rw [db2.1]; omega)
                (by rw [db2.2.1]; omega) c2).2 k l
                (by rw [db2.1]; exact hk) (by rw [db2.2.1]; exact hl) h20
                (by rw [← hb3e]; exact h3t)
              rw [← hb3e] at hcl
              exact ⟨fun h => m3 _ _ (hcl.1 (by omega)),
                     fun h => m3 _ _ (hcl.2.1 (by rw [db2.1]; exact h)),
                     fun h => m3 _ _ (hcl.2.2.1 (by omega)),
                     fun h => m3 _ _ (hcl.2.2.2 (by rw [db2.2.1]; exact h))⟩
            · have h30 : (b3.get k l).tmp_calc = false := by
                cases h : (b3.get k l).tmp_calc
                · rfl
                · exact absurd h h3t
              by_cases h4t : (b4.get k l).tmp_calc = true
              · have hcond : 1 ≤ j := by
                  by_contra hcond
                  rw [hb4, if_neg hcond] at h4t
                  rw [h30] at h4t
                  cases h4t
                have hb4e : b4 = tmpValueCalc f b3 i (j - 1) := by rw [hb4, if_pos hcond]
                have hcl := (ih b3 i (j - 1) (db3.2.2 hw) (by rw [db3.1]; omega)
                  (by rw [db3.2.1]; omega) c3).2 k l
                  (by rw [db3.1]; exact hk) (by rw [db3.2.1]; exact hl) h30
                  (by rw [← hb4e]; exact h4t)
                rw [← hb4e] at hcl
                exact ⟨fun h => m4 _ _ (hcl.1 (by omega)),
                       fun h => m4 _ _ (hcl.2.1 (by rw [db3.1]; exact h)),
                       fun h => m4 _ _ (hcl.2.2.1 (by omega)),
                       fun h => m4 _ _ (hcl.2.2.2 (by rw [db3.2.1]; exact h))⟩
              · have h40 : (b4.get k l).tmp_calc = false := by
                  cases h : (b4.get k l).tmp_calc
                  · rfl
                  · exact absurd h h4t
                have hcond : j + 1 < b.y := by
                  by_contra hcond
                  rw [hb5, if_neg hcond] at h5
                  rw [h40] at h5
                  cases h5
                have hb5e : b5 = tmpValueCalc f b4 i (j + 1) := by rw [hb5, if_pos hcond]
                have hcl := (ih b4 i (j + 1) (db4.2.2 hw) (by rw [db4.1]; omega)
                  (by rw [db4.2.1]; omega) c4).2 k l
                  (by rw [db4.1]; exact hk) (by rw [db4.2.1]; exact hl) h40
                  (by rw [← hb5e]; exact h5)
                rw [← hb5e] at hcl
                exact ⟨fun h => hcl.1 (by omega),
                       fun h => hcl.2.1 (by rw [db4.1]; exact h),
                       fun h => hcl.2.2.1 (by omega),
                       fun h => hcl.2.2.2 (by rw [db4.2.1]; exact h)⟩

-- ### Completeness of `finalValueCalc`

theorem finalValueCalc_complete : ∀ f b i j, b.wf → i < b.x → j < b.y →
    countIdx b (fun t => !t.final_calc) ≤ f →
    (((finalValueCalc f b i j).get i j).final_calc = true) ∧
    (∀ k l, k < b.x → l < b.y → (b.get k l).final_calc = false →
      ((finalValueCalc f b i j).get k l).final_calc = true →
      ((1 ≤ k → ((finalValueCalc f b i j).get (k - 1) l).final_calc = true) ∧
       (k + 1 < b.x → ((finalValueCalc f b i j).get (k + 1) l).final_calc = true) ∧
       (1 ≤ l → ((finalValueCalc f b i j).get k (l - 1)).final_calc = true) ∧
       (l + 1 < b.y → ((finalValueCalc f b i j).get k (l + 1)).final_calc = true))) := by
  intro f
  induction f with
  | zero =>
    intro b i j hw hi hj hf
    constructor
    · by_cases ht : (b.get i j).final_calc = true
      · exact ht
      · have ht0 : (b.get i j).final_calc = false := by
          cases h : (b.get i j).final_calc
          · rfl
          · exact absurd h ht
        have := countIdx_pos b (fun t => !t.final_calc) i j hi hj (by simp [ht0])
        omega
    · intro k l hk hl h0 h1
      rw [finalValueCalc] at h1
      rw [h0] at h1
      cases h1
  | succ f ih =>
    intro b i j hw hi hj hf
    by_cases ht : (b.get i j).final_calc = true
    · constructor
      · rw [finalValueCalc, if_pos ht]; exact ht
      · intro k l hk hl h0 h1
        rw [finalValueCalc, if_pos ht] at h1
        rw [h0] at h1
        cases h1
    · have ht0 : (b.get i j).final_calc = false := by
        cases h : (b.get i j).final_calc
        · rfl
        · exact absurd h ht
      rw [finalValueCalc, if_neg ht]
      dsimp only
      set t1 : Tile := { b.get i j with state := (b.get i j).state - 10, final_calc := true } with ht1
      set b1 := b.setTile i j t1 with hb1
      set b2 := if 1 ≤ i then finalValueCalc f b1 (i - 1) j else b1 with hb2
      set b3 := if i + 1 < b.x then finalValueCalc f b2 (i + 1) j else b2 with hb3
      set b4 := if 1 ≤ j then finalValueCalc f b3 i (j - 1) else b3 with hb4
      set b5 := if j + 1 < b.y then finalValueCalc f b4 i (j + 1) else b4 with hb5
      have d1 : dimWF b b1 := dimWF_setTile b i j t1
      have d2 : dimWF b1 b2 := by rw [hb2]; exact finalValueCalc_dimWF_ite f b1 (i - 1) j _ _
      have d3 : dimWF b2 b3 := by rw [hb3]; exact finalValueCalc_dimWF_ite f b2 (i + 1) j _ _
      have d4 : dimWF b3 b4 := by rw [hb4]; exact finalValueCalc_dimWF_ite f b3 i (j - 1) _ _
      have d5 : dimWF b4 b5 := by rw [hb5]; exact finalValueCalc_dimWF_ite f b4 i (j + 1) _ _
      have db2 : dimWF b b2 := dimWF_trans _ _ _ d1 d2
      have db3 : dimWF b b3 := dimWF_trans _ _ _ db2 d3
      have db4 : dimWF b b4 := dimWF_trans _ _ _ db3 d4
      have r2 : ∀ k l, finR (b1.get k l) (b2.get k l) := by
        intro k l; rw [hb2]; exact finalValueCalc_finR_ite f b1 (i - 1) j k l _ _
      have r3 : ∀ k l, finR (b2.get k l) (b3.get k l) := by
        intro k l; rw [hb3]; exact finalValueCalc_finR_ite f b2 (i + 1) j k l _ _
      have r4 : ∀ k l, finR (b3.get k l) (b4.get k l) := by
        intro k l; rw [hb4]; exact finalValueCalc_finR_ite f b3 i (j - 1) k l _ _
      have r5 : ∀ k l, finR (b4.get k l) (b5.get k l) := by
        intro k l; rw [hb5]; exact finalValueCalc_finR_ite f b4 i (j + 1) k l _ _
      have m3 : ∀ k l, (b3.get k l).final_calc = true → (b5.get k l).final_calc = true := by
        intro k l h
        exact finR_mono_true _ _ (r5 k l) (finR_mono_true _ _ (r4 k l) h)
      have m2 : ∀ k l, (b2.get k l).final_calc = true → (b5.get k l).final_calc = true := by
        intro k l h
        exact m3 k l (finR_mono_true _ _ (r3 k l) h)
      have m4 : ∀ k l, (b4.get k l).final_calc = true → (b5.get k l).final_calc = true := by
        intro k l h
        exact finR_mono_true _ _ (r5 k l) h
      have c1 : countIdx b1 (fun t => !t.final_calc) ≤ f := by
        have h := countIdx_setTile b (fun t => !t.final_calc) i j t1 hw hi hj
        have e1 : (if (fun t => !t.final_calc) (b.get i j) then 1 else 0) = 1 := by
          simp [ht0]
        have e2 : (if (fun t => !t.final_calc) t1 then 1 else 0) = 0 := by
          simp [ht1]
        rw [e1, e2] at h
        rw [hb1]
        omega
      have c2 : countIdx b2 (fun t => !t.final_calc) ≤ f :=
        le_trans (countUnfinal_le_of_finR b1 b2 d2.1 d2.2.1 r2) c1
      have c3 : countIdx b3 (fun t => !t.final_calc) ≤ f :=
        le_trans (countUnfinal_le_of_finR b2 b3 d3.1 d3.2.1 r3) c2
      have c4 : countIdx b4 (fun t => !t.final_calc) ≤ f :=
        le_trans (countUnfinal_le_of_finR b3 b4 d4.1 d4.2.1 r4) c3
      have g1 : b1.get i j = t1 := Board.get_setTile_eq b i j t1 hw hi hj
      constructor
      · refine m2 i j ?_
        refine finR_mono_true _ _ (r2 i j) ?_
        rw [g1]
      · intro k l hk hl h0 h5
        by_cases hkl : k = i ∧ l = j
        · obtain ⟨rfl, rfl⟩ := hkl
          refine ⟨?_, ?_, ?_, ?_⟩
          · intro hki
            have hb2e : b2 = finalValueCalc f b1 (k - 1) l := by rw [hb2, if_pos hki]
            have := (ih b1 (k - 1) l (d1.2.2 hw) (by rw [d1.1]; omega)
              (by rw [d1.2.1]; omega) c1).1
            rw [← hb2e] at this
            exact m2 _ _ this
          · intro hki
            have hb3e : b3 = finalValueCalc f b2 (k + 1) l := by rw [hb3, if_pos hki]
            have := (ih b2 (k + 1) l (db2.2.2 hw) (by rw [db2.1]; omega)
              (by rw [db2.2.1]; omega) c2).1
            rw [← hb3e] at this
            exact m3 _ _ this
          · intro hlj
            have hb4e : b4 = finalValueCalc f b3 k (l - 1) := by rw [hb4, if_pos hlj]
            have := (ih b3 k (l - 1) (db3.2.2 hw) (by rw [db3.1]; omega)
              (by rw [db3.2.1]; omega) c3).1
            rw [← hb4e] at this
            exact m4 _ _ this
          · intro hlj
            have hb5e : b5 = finalValueCalc f b4 k (l + 1) := by rw [hb5, if_pos hlj]
            have := (ih b4 k (l + 1) (db4.2.2 hw) (by rw [db4.1]; omega)
              (by rw [db4.2.1]; omega) c4).1
            rw [← hb5e] at this
            exact this
        · have g1k : b1.get k l = b.get k l := Board.get_setTile_ne b i j k l t1 hkl
          have h10 : (b1.get k l).final_calc = false := by rw [g1k]; exact h0
          by_cases h2t : (b2.get k l).final_calc = true
          · have hcond : 1 ≤ i := by
              by_contra hcond
              rw [hb2, if_neg hcond] at h2t
              rw [h10] at h2t
              cases h2t
            have hb2e : b2 = finalValueCalc f b1 (i - 1) j := by rw [hb2, if_pos hcond]
            have hcl := (ih b1 (i - 1) j (d1.2.2 hw) (by rw [d1.1]; omega)
              (by rw [d1.2.1]; omega) c1).2 k l
              (by rw [d1.1]; exact hk) (by rw [d1.2.1]; exact hl) h10
              (by rw [← hb2e]; exact h2t)
            rw [← hb2e] at hcl
            exact ⟨fun h => m2 _ _ (hcl.1 (by omega)),
                   fun h => m2 _ _ (hcl.2.1 (by rw [d1.1]; exact h)),
                   fun h => m2 _ _ (hcl.2.2.1 (by omega)),
                   fun h => m2 _ _ (hcl.2.2.2 (by rw [d1.2.1]; exact h))⟩
          · have h20 : (b2.get k l).final_calc = false := by
              cases h : (b2.get k l).final_calc
              · rfl
              · exact absurd h h2t
            by_cases h3t : (b3.get k l).final_calc = true
            · have hcond : i + 1 < b.x := by
                by_contra hcond
                rw [hb3, if_neg hcond] at h3t
                rw [h20] at h3t
                cases h3t
              have hb3e : b3 = finalValueCalc f b2 (i + 1) j := by rw [hb3, if_pos hcond]
              have hcl := (ih b2 (i + 1) j (db2.2.2 hw) (by rw [db2.1]; omega)
                (by rw [db2.2.1]; omega) c2).2 k l
                (by rw [db2.1]; exact hk) (by rw [db2.2.1]; exact hl) h20
                (by rw [← hb3e]; exact h3t)
              rw [← hb3e] at hcl
              exact ⟨fun h => m3 _ _ (hcl.1 (by omega)),
                     fun h => m3 _ _ (hcl.2.1 (by rw [db2.1]; exact h)),
                     fun h => m3 _ _ (hcl.2.2.1 (by omega)),
                     fun h => m3 _ _ (hcl.2.2.2 (by rw [db2.2.1]; exact h))⟩
            · have h30 : (b3.get k l).final_calc = false := by
                cases h : (b3.get k l).final_calc
                · rfl
                · exact absurd h h3t
              by_cases h4t : (b4.get k l).final_calc = true
              · have hcond : 1 ≤ j := by
                  by_contra hcond
                  rw [hb4, if_neg hcond] at h4t
                  rw [h30] at h4t
                  cases h4t
                have hb4e : b4 = finalValueCalc f b3 i (j - 1) := by rw [hb4, if_pos hcond]
                have hcl := (ih b3 i (j - 1) (db3.2.2 hw) (by rw [db3.1]; omega)
                  (by rw [db3.2.1]; omega) c3).2 k l
                  (by rw [db3.1]; exact hk) (by rw [db3.2.1]; exact hl) h30
                  (by rw [← hb4e]; exact h4t)
                rw [← hb4e] at hcl
                exact ⟨fun h => m4 _ _ (hcl.1 (by omega)),
                       fun h => m4 _ _ (hcl.2.1 (by rw [db3.1]; exact h)),
                       fun h => m4 _ _ (hcl.2.2.1 (by omega)),
                       fun h => m4 _ _ (hcl.2.2.2 (by rw [db3.2.1]; exact h))⟩
              · have h40 : (b4.get k l).final_calc = false := by
                  cases h : (b4.get k l).final_calc
                  · rfl
                  · exact absurd h h4t
                have hcond : j + 1 < b.y := by
                  by_contra hcond
                  rw [hb5, if_neg hcond] at h5
                  rw [h40] at h5
                  cases h5
                have hb5e : b5 = finalValueCalc f b4 i (j + 1) := by rw [hb5, if_pos hcond]
                have hcl := (ih b4 i (j + 1) (db4.2.2 hw) (by rw [db4.1]; omega)
                  (by rw [db4.2.1]; omega) c4).2 k l
                  (by rw [db4.1]; exact hk) (by rw [db4.2.1]; exact hl) h40
                  (by rw [← hb5e]; exact h5)
                rw [← hb5e] at hcl
                exact ⟨fun h => hcl.1 (by omega),
                       fun h => hcl.2.1 (by rw [db4.1]; exact h),
                       fun h => hcl.2.2.1 (by omega),
                       fun h => hcl.2.2.2 (by rw [db4.2.1]; exact h)⟩

-- ### Counting corollaries

theorem countIdx_full (b : Board) (p : Tile → Bool)
    (h : ∀ k < b.x, ∀ l < b.y, p (b.get k l) = true) :
    countIdx b p = b.x * b.y := by
  unfold countIdx
  rw [Finset.sum_congr rfl (fun q hq => ?_)]
  · rw [Finset.sum_const, Finset.card_product, Finset.card_range, Finset.card_range,
      smul_eq_mul, mul_one]
  · rw [Finset.mem_product, Finset.mem_range, Finset.mem_range] at hq
    rw [if_pos (h q.1 hq.1 q.2 hq.2)]

theorem countIdx_zero_of (b : Board) (p : Tile → Bool)
    (h : ∀ k < b.x, ∀ l < b.y, p (b.get k l) = false) :
    countIdx b p = 0 := by
  unfold countIdx
  apply Finset.sum_eq_zero
  intro q hq
  rw [Finset.mem_product, Finset.mem_range, Finset.mem_range] at hq
  rw [h q.1 hq.1 q.2 hq.2]
  rfl

-- ### `uncover` never touches a mine tile

theorem uncover_nine_cov : ∀ f b i j, (b.get i j).state ≠ 9 →
    ∀ k l, (b.get k l).state = 9 →
    ((uncover f b i j).get k l).cov = (b.get k l).cov := by
  intro f
  induction f with
  | zero => intro b i j h9 k l hkl9; rw [uncover]
  | succ f ih =>
    have hnb : ∀ c k' l' k l, (c.get k l).state = 9 →
        ((uncoverNb (uncover f) c k' l').get k l).cov = (c.get k l).cov := by
      intro c k' l' k l h9
      unfold uncoverNb
      split
      · rename_i hs0
        exact ih c k' l' (by rw [hs0]; intro h; cases h) k l h9
      · split
        · rename_i hs0 hs9
          rw [Board.get_setTile_ne]
          intro ⟨rfl, rfl⟩
          exact hs9 h9
        · rfl
    intro b i j h9 k l hkl9
    by_cases hc : (b.get i j).cov = true
    · rw [uncover, if_pos hc]
      dsimp only
      set t1 : Tile := { b.get i j with cov := false } with ht1
      set b1 := b.setTile i j t1 with hb1
      have hne : ¬(k = i ∧ l = j) := by
        intro ⟨rfl, rfl⟩
        exact h9 hkl9
      have g1 : b1.get k l = b.get k l := Board.get_setTile_ne b i j k l t1 hne
      have h19 : (b1.get k l).state = 9 := by rw [g1]; exact hkl9
      split
      · set b2 := if 1 ≤ i then uncoverNb (uncover f) b1 (i - 1) j else b1 with hb2
        set b3 := if i + 1 < b.x then uncoverNb (uncover f) b2 (i + 1) j else b2 with hb3
        set b4 := if 1 ≤ j then uncoverNb (uncover f) b3 i (j - 1) else b3 with hb4
        have r2 : ∀ k l, covR (b1.get k l) (b2.get k l) := by
          intro k l; rw [hb2]; exact uncoverNb_covR_ite f b1 (i - 1) j k l _ _
        have r3 : ∀ k l, covR (b2.get k l) (b3.get k l) := by
          intro k l; rw [hb3]; exact uncoverNb_covR_ite f b2 (i + 1) j k l _ _
        have r4 : ∀ k l, covR (b3.get k l) (b4.get k l) := by
          intro k l; rw [hb4]; exact uncoverNb_covR_ite f b3 i (j - 1) k l _ _
        have h29 : (b2.get k l).state = 9 := by rw [covR_state_eq _ _ (r2 k l)]; exact h19
        have h39 : (b3.get k l).state = 9 := by rw [covR_state_eq _ _ (r3 k l)]; exact h29
        have h49 : (b4.get k l).state = 9 := by rw [covR_state_eq _ _ (r4 k l)]; exact h39
        have s2 : (b2.get k l).cov = (b1.get k l).cov := by
          rw [hb2]
          split
          · exact hnb b1 (i - 1) j k l h19
          · rfl
        have s3 : (b3.get k l).cov = (b2.get k l).cov := by
          rw [hb3]
          split
          · exact hnb b2 (i + 1) j k l h29
          · rfl
        have s4 : (b4.get k l).cov = (b3.get k l).cov := by
          rw [hb4]
          split
          · exact hnb b3 i (j - 1) k l h39
          · rfl
        have s5 : ((if j + 1 < b.y then uncoverNb (uncover f) b4 i (j + 1) else b4).get k l).cov
            = (b4.get k l).cov := by
          split
          · exact hnb b4 i (j + 1) k l h49
          · rfl
        rw [s5, s4, s3, s2, g1]
      · rw [g1]
    · rw [uncover, if_neg hc]

/-!
Claims
-/

/-- Claim C1 (counterexample): on the board `bC1` the tile `(0,1)` is
covered and flagged before the reveal of the mine at `(0,0)`, yet the
cascade reveals it (`cov` becomes `false`), contradicting the claim that
previously flagged cells are not revealed by the cascade. -/
theorem C1_counterexample :
    (bC1.get 0 0).cov = true ∧ (bC1.get 0 0).flagged = false ∧
    (bC1.get 0 0).state = 9 ∧
    (bC1.get 0 1).cov = true ∧ (bC1.get 0 1).flagged = true ∧
    ((leftClick bC1 0 0).get 0 1).cov = false := by
  decide

/-- Claim C1 (amended): revealing a covered, unflagged mine triggers the
full cascade, which reveals EVERY in-bounds tile — flagged tiles
included; the `flagged` attribute itself is left unchanged (so flagged
tiles stay flagged but are nevertheless uncovered). -/
theorem C1_mine_cascade_reveals_all (b : Board) (i j : Nat)
    (hw : b.wf) (hi : i < b.x) (hj : j < b.y)
    (htr : ∀ k < b.x, ∀ l < b.y, (b.get k l).triggered = false)
    (hc : (b.get i j).cov = true) (hfl : (b.get i j).flagged = false)
    (hm : (b.get i j).state = 9) :
    ∀ k < b.x, ∀ l < b.y,
      ((leftClick b i j).get k l).cov = false ∧
      ((leftClick b i j).get k l).flagged = (b.get k l).flagged := by
  have hlc : leftClick b i j
      = uncoverAll (countIdx b (fun t => !t.triggered)) b i j := by
    unfold leftClick
    rw [if_pos hc, if_neg (by rw [hfl]; intro h; cases h), if_pos hm]
  have hcomp := uncoverAll_complete (countIdx b (fun t => !t.triggered)) b i j
    hw hi hj (le_refl _)
  have hall : ∀ k l, k < b.x → l < b.y →
      ((uncoverAll (countIdx b (fun t => !t.triggered)) b i j).get k l).triggered = true := by
    refine grid_reach b.x b.y _ i j hi hj hcomp.1 ?_
    intro k l hk hl hS
    exact hcomp.2 k l hk hl (htr k hk l hl) hS
  intro k hk l hl
  have htrig := hall k l hk hl
  have hr := uncoverAll_trigR (countIdx b (fun t => !t.triggered)) b i j k l
  rw [hlc]
  exact ⟨trigR_cov_of_new _ _ hr (htr k hk l hl) htrig, trigR_flagged_eq _ _ hr⟩

/-- Claim C1 witness: the amended theorem at the concrete board `bC1`. -/
theorem C1_witness :
    ((leftClick bC1 0 0).get 0 1).cov = false ∧
    ((leftClick bC1 0 0).get 0 1).flagged = (bC1.get 0 1).flagged := by
  have h := C1_mine_cascade_reveals_all bC1 0 0 (by decide) (by decide) (by decide)
    (by decide) (by decide) (by decide) (by decide)
  exact h 0 (by decide) 1 (by decide)

/-- Claim C6: on a fully covered, unflagged board whose values are all
zero, a single reveal anywhere uncovers every tile; the number of
covered tiles falls from `x * y` (every tile, so the traversal — whose
recursion depth is fuelled by exactly that covered count — is bounded by
the number of tiles, each revealed at most once) to `0`. -/
theorem C6_zero_board_full_reveal (b : Board) (i j : Nat)
    (hw : b.wf) (hi : i < b.x) (hj : j < b.y)
    (hall : ∀ k < b.x, ∀ l < b.y, (b.get k l).state = 0 ∧
      (b.get k l).cov = true ∧ (b.get k l).flagged = false) :
    (∀ k < b.x, ∀ l < b.y, ((leftClick b i j).get k l).cov = false) ∧
    countIdx b (fun t => t.cov) = b.x * b.y ∧
    countIdx (leftClick b i j) (fun t => t.cov) = 0 := by
  have hc : (b.get i j).cov = true := (hall i hi j hj).2.1
  have hfl : (b.get i j).flagged = false := (hall i hi j hj).2.2
  have hs0 : (b.get i j).state = 0 := (hall i hi j hj).1
  have hlc : leftClick b i j = uncover (countIdx b (fun t => t.cov)) b i j := by
    unfold leftClick
    rw [if_pos hc, if_neg (by rw [hfl]; intro h; cases h),
      if_neg (by rw [hs0]; intro h; cases h)]
  have hz : ∀ k l, k < b.x → l < b.y → (b.get k l).state = 0 := by
    intro k l hk hl; exact (hall k hk l hl).1
  have hcomp := uncover_complete (countIdx b (fun t => t.cov)) b i j
    hw hi hj hz (le_refl _)
  have hrev : ∀ k l, k < b.x → l < b.y →
      ((uncover (countIdx b (fun t => t.cov)) b i j).get k l).cov = false := by
    refine grid_reach b.x b.y _ i j hi hj hcomp.1 ?_
    intro k l hk hl hS
    exact hcomp.2 k l hk hl (hall k hk l hl).2.1 hS
  have hfull : countIdx b (fun t => t.cov) = b.x * b.y :=
    countIdx_full b _ (fun k hk l hl => (hall k hk l hl).2.1)
  refine ⟨fun k hk l hl => by rw [hlc]; exact hrev k l hk hl, hfull, ?_⟩
  have hd : dimWF b (leftClick b i j) := by
    rw [hlc]; exact uncover_dimWF _ b i j
  apply countIdx_zero_of
  intro k hk l hl
  rw [hlc] at hk hl ⊢
  exact hrev k l (by rw [← (uncover_dimWF _ b i j).1]; exact hk)
    (by rw [← (uncover_dimWF _ b i j).2.1]; exact hl)

/-- Claim C6 witness: the theorem at the concrete all-zero board `bC6`. -/
theorem C6_witness :
    (∀ k < bC6.x, ∀ l < bC6.y, ((leftClick bC6 0 0).get k l).cov = false) ∧
    countIdx bC6 (fun t => t.cov) = bC6.x * bC6.y ∧
    countIdx (leftClick bC6 0 0) (fun t => t.cov) = 0 :=
  C6_zero_board_full_reveal bC6 0 0 (by decide) (by decide) (by decide) (by decide)

/-- A `left_click` on an uncovered tile is a no-op. -/
theorem leftClick_of_uncovered (c : Board) (i j : Nat)
    (h : (c.get i j).cov = false) : leftClick c i j = c := by
  unfold leftClick
  rw [if_neg (by rw [h]; intro hh; cases hh)]

/-- Claim C7: `left_click` is idempotent — a second click on the same
coordinate leaves the board exactly as after the first; in particular a
click on an already revealed tile is a no-op. -/
theorem C7_reveal_idempotent (b : Board) (i j : Nat)
    (hw : b.wf) (hi : i < b.x) (hj : j < b.y) :
    leftClick (leftClick b i j) i j = leftClick b i j := by
  by_cases hc : (b.get i j).cov = true
  · by_cases hfl : (b.get i j).flagged = true
    · have hb : leftClick b i j = b := by
        unfold leftClick
        rw [if_pos hc, if_pos hfl]
      rw [hb]
      exact hb
    · have hfl0 : (b.get i j).flagged = false := by
        cases h : (b.get i j).flagged
        · rfl
        · exact absurd h hfl
      by_cases hm : (b.get i j).state = 9
      · have hlc : leftClick b i j
            = uncoverAll (countIdx b (fun t => !t.triggered)) b i j := by
          unfold leftClick
          rw [if_pos hc, if_neg (by rw [hfl0]; intro h; cases h), if_pos hm]
        by_cases htr : (b.get i j).triggered = true
        · have hb : leftClick b i j = b := by
            rw [hlc]
            cases hcnt : countIdx b (fun t => !t.triggered) with
            | zero => rw [uncoverAll]
            | succ n => rw [uncoverAll, if_pos htr]
          rw [hb]
          exact hb
        · have hcov : ((leftClick b i j).get i j).cov = false := by
            rw [hlc]
            have htg := uncoverAll_triggers (countIdx b (fun t => !t.triggered))
              b i j hw hi hj (le_refl _)
            have htr0 : (b.get i j).triggered = false := by
              cases h : (b.get i j).triggered
              · rfl
              · exact absurd h htr
            exact trigR_cov_of_new _ _
              (uncoverAll_trigR (countIdx b (fun t => !t.triggered)) b i j i j) htr0 htg
          exact leftClick_of_uncovered _ i j hcov
      · have hlc : leftClick b i j
            = uncover (countIdx b (fun t => t.cov)) b i j := by
          unfold leftClick
          rw [if_pos hc, if_neg (by rw [hfl0]; intro h; cases h), if_neg hm]
        have hcov : ((leftClick b i j).get i j).cov = false := by
          rw [hlc]
          exact uncover_reveals (countIdx b (fun t => t.cov)) b i j hw hi hj (le_refl _)
        exact leftClick_of_uncovered _ i j hcov
  · have hb : leftClick b i j = b := by
      unfold leftClick
      rw [if_neg hc]
    rw [hb]
    exact hb

/-- Claim C7 witness: idempotence at the concrete board `bC6`. -/
theorem C7_witness : leftClick (leftClick bC6 0 0) 0 0 = leftClick bC6 0 0 :=
  C7_reveal_idempotent bC6 0 0 (by decide) (by decide) (by decide)

/-- Claim C10: the zero-value cascade never consults neighbouring flags —
on `bC10`, tile `(0,1)` is covered and flagged, tile `(0,0)` is a
covered, unflagged zero tile, and revealing `(0,0)` uncovers `(0,1)`
even though it was flagged (the flag itself stays set). -/
theorem C10_cascade_ignores_flags :
    (bC10.get 0 1).cov = true ∧ (bC10.get 0 1).flagged = true ∧
    (bC10.get 0 0).cov = true ∧ (bC10.get 0 0).flagged = false ∧
    (bC10.get 0 0).state = 0 ∧
    ((leftClick bC10 0 0).get 0 1).cov = false ∧
    ((leftClick bC10 0 0).get 0 1).flagged = true := by
  decide

/-- A `left_click` never covers a revealed tile and never touches a flag. -/
theorem leftClick_cov_flag (b : Board) (i j k l : Nat) :
    ((b.get k l).cov = false → ((leftClick b i j).get k l).cov = false) ∧
    ((leftClick b i j).get k l).flagged = (b.get k l).flagged := by
  unfold leftClick
  split
  · split
    · exact ⟨fun h => h, rfl⟩
    · split
      · have hr := uncoverAll_trigR (countIdx b (fun t => !t.triggered)) b i j k l
        constructor
        · intro h
          rcases hr with heq | ⟨h0, heq⟩
          · rw [heq]; exact h
          · rw [heq]
        · exact trigR_flagged_eq _ _ hr
      · have hr := uncover_covR (countIdx b (fun t => t.cov)) b i j k l
        exact ⟨covR_cov_mono _ _ hr, covR_flagged_eq _ _ hr⟩
  · exact ⟨fun h => h, rfl⟩

/-- Claim C9: the per-tile state machine is one-way into revealed —
`right_click` toggles only between covered-unflagged and covered-flagged
and is a no-op on a revealed tile; a flagged tile is never revealed by a
direct `left_click`; and neither operation ever re-covers a revealed
tile or flags it. -/
theorem C9_state_machine (b : Board) (i j : Nat) :
    ((b.get i j).cov = false → rightClick b i j = b) ∧
    ((b.get i j).cov = true → (b.get i j).flagged = false →
      rightClick b i j = b.setTile i j { b.get i j with flagged := true }) ∧
    ((b.get i j).cov = true → (b.get i j).flagged = true →
      rightClick b i j = b.setTile i j { b.get i j with flagged := false }) ∧
    ((b.get i j).cov = true → (b.get i j).flagged = true → leftClick b i j = b) ∧
    (∀ k l, (b.get k l).cov = false →
      ((leftClick b i j).get k l).cov = false ∧
      ((leftClick b i j).get k l).flagged = (b.get k l).flagged ∧
      ((rightClick b i j).get k l).cov = false ∧
      ((rightClick b i j).get k l).flagged = (b.get k l).flagged) := by
  refine ⟨?_, ?_, ?_, ?_, ?_⟩
  · intro h
    unfold rightClick
    rw [if_neg (by rw [h]; intro hh; cases hh)]
  · intro hc hfl
    unfold rightClick
    rw [if_pos hc, if_neg (by rw [hfl]; intro hh; cases hh)]
  · intro hc hfl
    unfold rightClick
    rw [if_pos hc, if_pos hfl]
  · intro hc hfl
    unfold leftClick
    rw [if_pos hc, if_pos hfl]
  · intro k l h
    have hl := leftClick_cov_flag b i j k l
    refine ⟨hl.1 h, hl.2, ?_, ?_⟩
    · unfold rightClick
      split
      · rename_i hcov
        have hne : ¬(k = i ∧ l = j) := by
          intro ⟨rfl, rfl⟩
          rw [h] at hcov
          cases hcov
        split
        · rw [Board.get_setTile_ne b i j k l _ hne]; exact h
        · rw [Board.get_setTile_ne b i j k l _ hne]; exact h
      · exact h
    · unfold rightClick
      split
      · rename_i hcov
        have hne : ¬(k = i ∧ l = j) := by
          intro ⟨rfl, rfl⟩
          rw [h] at hcov
          cases hcov
        split
        · rw [Board.get_setTile_ne b i j k l _ hne]
        · rw [Board.get_setTile_ne b i j k l _ hne]
      · rfl

/-- Claim C9 witness: on `bC9`, `(0,0)` is revealed, so `right_click`
there is a no-op; and the covered flagged tile `(0,1)` is not revealed
by a direct `left_click`. -/
theorem C9_witness :
    rightClick bC9 0 0 = bC9 ∧ leftClick bC9 0 1 = bC9 :=
  ⟨(C9_state_machine bC9 0 0).1 (by decide),
   (C9_state_machine bC9 0 1).2.2.2.1 (by decide) (by decide)⟩

/-- One unfolding of the flood fill on a covered zero tile: every
in-bounds side neighbour that is not a mine ends up revealed (a zero
neighbour by recursion, a nonzero non-mine neighbour in place). -/
theorem uncover_zero_neighbours (f : Nat) (b : Board) (i j : Nat)
    (hw : b.wf) (hi : i < b.x) (hj : j < b.y)
    (hc : (b.get i j).cov = true) (hs0 : (b.get i j).state = 0)
    (hf : countIdx b (fun t => t.cov) ≤ f) :
    (1 ≤ i → (b.get (i - 1) j).state ≠ 9 →
      ((uncover f b i j).get (i - 1) j).cov = false) ∧
    (i + 1 < b.x → (b.get (i + 1) j).state ≠ 9 →
      ((uncover f b i j).get (i + 1) j).cov = false) ∧
    (1 ≤ j → (b.get i (j - 1)).state ≠ 9 →
      ((uncover f b i j).get i (j - 1)).cov = false) ∧
    (j + 1 < b.y → (b.get i (j + 1)).state ≠ 9 →
      ((uncover f b i j).get i (j + 1)).cov = false) := by
  cases f with
  | zero =>
    have := countIdx_pos b (fun t => t.cov) i j hi hj (by simp [hc])
    omega
  | succ f =>
    rw [uncover, if_pos hc]
    dsimp only
    set t1 : Tile := { b.get i j with cov := false } with ht1
    set b1 := b.setTile i j t1 with hb1
    have g1 : b1.get i j = t1 := Board.get_setTile_eq b i j t1 hw hi hj
    have hs1 : (b1.get i j).state = 0 := by rw [g1, ht1]; exact hs0
    rw [if_pos hs1]
    set b2 := if 1 ≤ i then uncoverNb (uncover f) b1 (i - 1) j else b1 with hb2
    set b3 := if i + 1 < b.x then uncoverNb (uncover f) b2 (i + 1) j else b2 with hb3
    set b4 := if 1 ≤ j then uncoverNb (uncover f) b3 i (j - 1) else b3 with hb4
    set b5 := if j + 1 < b.y then uncoverNb (uncover f) b4 i (j + 1) else b4 with hb5
    have d1 : dimWF b b1 := dimWF_setTile b i j t1
    have d2 : dimWF b1 b2 := by rw [hb2]; exact uncoverNb_dimWF_ite f b1 (i - 1) j _ _
    have d3 : dimWF b2 b3 := by rw [hb3]; exact uncoverNb_dimWF_ite f b2 (i + 1) j _ _
    have d4 : dimWF b3 b4 := by rw [hb4]; exact uncoverNb_dimWF_ite f b3 i (j - 1) _ _
    have db2 : dimWF b b2 := dimWF_trans _ _ _ d1 d2
    have db3 : dimWF b b3 := dimWF_trans _ _ _ db2 d3
    have db4 : dimWF b b4 := dimWF_trans _ _ _ db3 d4
    have r2 : ∀ k l, covR (b1.get k l) (b2.get k l) := by
      intro k l; rw [hb2]; exact uncoverNb_covR_ite f b1 (i - 1) j k l _ _
    have r3 : ∀ k l, covR (b2.get k l) (b3.get k l) := by
      intro k l; rw [hb3]; exact uncoverNb_covR_ite f b2 (i + 1) j k l _ _
    have r4 : ∀ k l, covR (b3.get k l) (b4.get k l) := by
      intro k l; rw [hb4]; exact uncoverNb_covR_ite f b3 i (j - 1) k l _ _
    have r5 : ∀ k l, covR (b4.get k l) (b5.get k l) := by
      intro k l; rw [hb5]; exact uncoverNb_covR_ite f b4 i (j + 1) k l _ _
    have m3 : ∀ k l, (b3.get k l).cov = false → (b5.get k l).cov = false := by
      intro k l h
      exact covR_cov_mono _ _ (r5 k l) (covR_cov_mono _ _ (r4 k l) h)
    have m2 : ∀ k l, (b2.get k l).cov = false → (b5.get k l).cov = false := by
      intro k l h
      exact m3 k l (covR_cov_mono _ _ (r3 k l) h)
    have m4 : ∀ k l, (b4.get k l).cov = false → (b5.get k l).cov = false := by
      intro k l h
      exact covR_cov_mono _ _ (r5 k l) h
    have c1 : countIdx b1 (fun t => t.cov) ≤ f := by
      have h := countIdx_setTile b (fun t => t.cov) i j t1 hw hi hj
      have e1 : (if (fun t => t.cov) (b.get i j) then 1 else 0) = 1 := by
        simp [hc]
      have e0 : (if (fun t => t.cov) t1 then 1 else 0) = 0 := by
        simp [ht1]
      rw [e1, e0] at h
      rw [hb1]
      omega
    have c2 : countIdx b2 (fun t => t.cov) ≤ f :=
      le_trans (countCov_le_of_covR b1 b2 d2.1 d2.2.1 r2) c1
    have c3 : countIdx b3 (fun t => t.cov) ≤ f :=
      le_trans (countCov_le_of_covR b2 b3 d3.1 d3.2.1 r3) c2
    have c4 : countIdx b4 (fun t => t.cov) ≤ f :=
      le_trans (countCov_le_of_covR b3 b4 d4.1 d4.2.1 r4) c3
    have hst1 : ∀ k l, ¬(k = i ∧ l = j) → b1.get k l = b.get k l := by
      intro k l h
      exact Board.get_setTile_ne b i j k l t1 h
    refine ⟨?_, ?_, ?_, ?_⟩
    · -- top neighbour
      intro hcond hn9
      have hne : ¬(i - 1 = i ∧ j = j) := by intro ⟨h1, _⟩; omega
      have hstate : (b1.get (i - 1) j).state = (b.get (i - 1) j).state := by
        rw [hst1 _ _ hne]
      refine m2 _ _ ?_
      rw [hb2, if_pos hcond]
      unfold uncoverNb
      by_cases hz : (b1.get (i - 1) j).state = 0
      · rw [if_pos hz]
        exact uncover_reveals f b1 (i - 1) j (d1.2.2 hw) (by rw [d1.1]; omega)
          (by rw [d1.2.1]; omega) c1
      · rw [if_neg hz, if_pos (by rw [hstate]; exact hn9)]
        rw [Board.get_setTile_eq b1 (i - 1) j _ (d1.2.2 hw) (by rw [d1.1]; omega)
          (by rw [d1.2.1]; omega)]
    · -- bottom neighbour
      intro hcond hn9
      have hne : ¬(i + 1 = i ∧ j = j) := by intro ⟨h1, _⟩; omega
      have hstate : (b2.get (i + 1) j).state = (b.get (i + 1) j).state := by
        rw [covR_state_eq _ _ (r2 (i + 1) j), hst1 _ _ hne]
      refine m3 _ _ ?_
      rw [hb3, if_pos hcond]
      unfold uncoverNb
      by_cases hz : (b2.get (i + 1) j).state = 0
      · rw [if_pos hz]
        exact uncover_reveals f b2 (i + 1) j (db2.2.2 hw) (by rw [db2.1]; omega)
          (by rw [db2.2.1]; omega) c2
      · rw [if_neg hz, if_pos (by rw [hstate]; exact hn9)]
        rw [Board.get_setTile_eq b2 (i + 1) j _ (db2.2.2 hw) (by rw [db2.1]; omega)
          (by rw [db2.2.1]; omega)]
    · -- left neighbour
      intro hcond hn9
      have hne : ¬(i = i ∧ j - 1 = j) := by intro ⟨_, h1⟩; omega
      have hstate : (b3.get i (j - 1)).state = (b.get i (j - 1)).state := by
        rw [covR_state_eq _ _ (r3 i (j - 1)), covR_state_eq _ _ (r2 i (j - 1)),
          hst1 _ _ hne]
      refine m4 _ _ ?_
      rw [hb4, if_pos hcond]
      unfold uncoverNb
      by_cases hz : (b3.get i (j - 1)).state = 0
      · rw [if_pos hz]
        exact uncover_reveals f b3 i (j - 1) (db3.2.2 hw) (by rw [db3.1]; omega)
          (by rw [db3.2.1]; omega) c3
      · rw [if_neg hz, if_pos (by rw [hstate]; exact hn9)]
        rw [Board.get_setTile_eq b3 i (j - 1) _ (db3.2.2 hw) (by rw [db3.1]; omega)
          (by rw [db3.2.1]; omega)]
    · -- right neighbour
      intro hcond hn9
      have hne : ¬(i = i ∧ j + 1 = j) := by intro ⟨_, h1⟩; omega
      have hstate : (b4.get i (j + 1)).state = (b.get i (j + 1)).state := by
        rw [covR_state_eq _ _ (r4 i (j + 1)), covR_state_eq _ _ (r3 i (j + 1)),
          covR_state_eq _ _ (r2 i (j + 1)), hst1 _ _ hne]
      rw [hb5, if_pos hcond]
      unfold uncoverNb
      by_cases hz : (b4.get i (j + 1)).state = 0
      · rw [if_pos hz]
        exact uncover_reveals f b4 i (j + 1) (db4.2.2 hw) (by rw [db4.1]; omega)
          (by rw [db4.2.1]; omega) c4
      · rw [if_neg hz, if_pos (by rw [hstate]; exact hn9)]
        rw [Board.get_setTile_eq b4 i (j + 1) _ (db4.2.2 hw) (by rw [db4.1]; omega)
          (by rw [db4.2.1]; omega)]

/-- Claim C2 (counterexample): on `bC2` (values `[[0,1,9],[1,2,1],[9,1,0]]`
computed by the engine itself from mines at `(0,2)` and `(2,0)`),
revealing the covered, unflagged zero tile `(0,0)` leaves its covered
diagonal 8-neighbour `(1,1)` — value `2`, not a mine — covered: the
cascade visits only the four side neighbours, not all eight. -/
theorem C2_counterexample :
    (bC2.get 0 0).cov = true ∧ (bC2.get 0 0).flagged = false ∧
    (bC2.get 0 0).state = 0 ∧
    (bC2.get 1 1).cov = true ∧ (bC2.get 1 1).state = 2 ∧
    ((leftClick bC2 0 0).get 1 1).cov = true := by
  decide

/-- Claim C2 (amended): revealing a covered, unflagged non-mine tile
reveals it; if its value is `0` the cascade visits the four in-bounds
SIDE neighbours (`top`, `bottom`, `left`, `right` — not the diagonal
ones): any such neighbour that is not a mine ends up revealed (a zero
neighbour via recursion, a nonzero non-mine neighbour in place), and no
mine tile anywhere changes its cover state. -/
theorem C2_zero_fill_4neighbours (b : Board) (i j : Nat)
    (hw : b.wf) (hi : i < b.x) (hj : j < b.y)
    (hc : (b.get i j).cov = true) (hfl : (b.get i j).flagged = false)
    (hnm : (b.get i j).state ≠ 9) :
    ((leftClick b i j).get i j).cov = false ∧
    ((b.get i j).state = 0 →
      (1 ≤ i → (b.get (i - 1) j).state ≠ 9 →
        ((leftClick b i j).get (i - 1) j).cov = false) ∧
      (i + 1 < b.x → (b.get (i + 1) j).state ≠ 9 →
        ((leftClick b i j).get (i + 1) j).cov = false) ∧
      (1 ≤ j → (b.get i (j - 1)).state ≠ 9 →
        ((leftClick b i j).get i (j - 1)).cov = false) ∧
      (j + 1 < b.y → (b.get i (j + 1)).state ≠ 9 →
        ((leftClick b i j).get i (j + 1)).cov = false)) ∧
    (∀ k l, (b.get k l).state = 9 →
      ((leftClick b i j).get k l).cov = (b.get k l).cov) := by
  have hlc : leftClick b i j = uncover (countIdx b (fun t => t.cov)) b i j := by
    unfold leftClick
    rw [if_pos hc, if_neg (by rw [hfl]; intro h; cases h), if_neg hnm]
  refine ⟨?_, ?_, ?_⟩
  · rw [hlc]
    exact uncover_reveals _ b i j hw hi hj (le_refl _)
  · intro hs0
    rw [hlc]
    exact uncover_zero_neighbours _ b i j hw hi hj hc hs0 (le_refl _)
  · intro k l h9
    rw [hlc]
    exact uncover_nine_cov _ b i j hnm k l h9

/-- Claim C2 witness: the amended theorem at `bC2`, click `(0,0)`: the
clicked tile and its side neighbours `(0,1)`, `(1,0)` end revealed and
the mine at `(0,2)` keeps its cover state. -/
theorem C2_witness :
    ((leftClick bC2 0 0).get 0 0).cov = false ∧
    ((leftClick bC2 0 0).get 0 1).cov = false ∧
    ((leftClick bC2 0 0).get 1 0).cov = false ∧
    ((leftClick bC2 0 0).get 0 2).cov = (bC2.get 0 2).cov := by
  have h := C2_zero_fill_4neighbours bC2 0 0 (by decide) (by decide) (by decide)
    (by decide) (by decide) (by decide)
  refine ⟨h.1, ?_, ?_, h.2.2 0 2 (by decide)⟩
  · have h2 := h.2.1 (by decide)
    exact h2.2.2.2 (by decide) (by decide)
  · have h2 := h.2.1 (by decide)
    exact h2.2.1 (by decide) (by decide)

-- ### Minefield lemmas

theorem getD_replicate {α : Type} (n i : Nat) (r : α) (d : α) (h : i < n) :
    (List.replicate n r).getD i d = r := by
  induction n generalizing i with
  | zero => omega
  | succ n ihn =>
    cases i with
    | zero => rfl
    | succ m => exact ihn m (by omega)

theorem mfSet_length (mf : List (List Nat)) (a b v : Nat) :
    (mfSet mf a b v).length = mf.length := by
  unfold mfSet
  exact List.length_set mf a _

theorem mfGet_set_ne (mf : List (List Nat)) (a b c d v : Nat)
    (h : ¬(c = a ∧ d = b)) : mfGet (mfSet mf a b v) c d = mfGet mf c d := by
  unfold mfGet mfSet
  by_cases hc : c = a
  · subst hc
    have hd : d ≠ b := fun hd => h ⟨rfl, hd⟩
    by_cases hca : c < mf.length
    · rw [getD_set_eq _ _ _ _ hca]
      exact getD_set_ne _ _ _ _ _ hd
    · rw [set_of_len_le _ _ _ (by omega)]
  · rw [getD_set_ne _ _ _ _ _ hc]

theorem mfGet_set_eq (mf : List (List Nat)) (a b v : Nat)
    (ha : a < mf.length) (hb : b < (mf.getD a []).length) :
    mfGet (mfSet mf a b v) a b = v := by
  unfold mfGet mfSet
  rw [getD_set_eq _ _ _ _ ha]
  exact getD_set_eq _ _ _ _ hb

theorem mineSum_set (x y : Nat) (mf : List (List Nat)) (a b v : Nat)
    (hlen : mf.length = x) (hrow : ∀ i < x, (mf.getD i []).length = y)
    (ha : a < x) (hb : b < y) :
    mineSum x y (mfSet mf a b v) + mfGet mf a b = mineSum x y mf + v := by
  unfold mineSum
  have hmem : (a, b) ∈ Finset.range x ×ˢ Finset.range y := by
    simp [Finset.mem_product, ha, hb]
  rw [← Finset.sum_erase_add _ _ hmem, ← Finset.sum_erase_add _ _ hmem]
  have hcong : ∀ q ∈ (Finset.range x ×ˢ Finset.range y).erase (a, b),
      mfGet (mfSet mf a b v) q.1 q.2 = mfGet mf q.1 q.2 := by
    intro q hq
    have hne : q ≠ (a, b) := Finset.ne_of_mem_erase hq
    apply mfGet_set_ne
    intro ⟨h1, h2⟩
    exact hne (Prod.ext h1 h2)
  rw [Finset.sum_congr rfl hcong]
  rw [mfGet_set_eq mf a b v (by omega) (by rw [hrow a ha]; exact hb)]
  dsimp only
  omega

theorem mfInv_set (x y : Nat) (mf : List (List Nat)) (a b : Nat)
    (h : mfInv x y mf) (ha1 : 1 ≤ a) (ha : a < x) (hb1 : 1 ≤ b) (hb : b < y) :
    mfInv x y (mfSet mf a b 1) := by
  obtain ⟨hlen, hrow, hle, hr0, hc0⟩ := h
  refine ⟨by rw [mfSet_length, hlen], ?_, ?_, ?_, ?_⟩
  · intro i hi
    show ((mf.set a ((mf.getD a []).set b 1)).getD i []).length = y
    by_cases hia : i = a
    · subst hia
      rw [getD_set_eq _ _ _ _ (by omega)]
      rw [List.length_set]
      exact hrow i hi
    · rw [getD_set_ne _ _ _ _ _ hia]
      exact hrow i hi
  · intro i hi j hj
    by_cases hij : i = a ∧ j = b
    · obtain ⟨rfl, rfl⟩ := hij
      rw [mfGet_set_eq mf i j 1 (by omega) (by rw [hrow i hi]; exact hj)]
    · rw [mfGet_set_ne mf a b i j 1 hij]
      exact hle i hi j hj
  · intro j hj
    rw [mfGet_set_ne mf a b 0 j 1 (by intro ⟨h1, _⟩; omega)]
    exact hr0 j hj
  · intro i hi
    rw [mfGet_set_ne mf a b i 0 1 (by intro ⟨_, h2⟩; omega)]
    exact hc0 i hi

theorem mfInv_replicate (x y : Nat) :
    mfInv x y (List.replicate x (List.replicate y 0)) := by
  have hget : ∀ i < x, ∀ j < y,
      mfGet (List.replicate x (List.replicate y 0)) i j = 0 := by
    intro i hi j hj
    unfold mfGet
    rw [getD_replicate x i _ _ hi, getD_replicate y j _ _ hj]
  refine ⟨List.length_replicate x _, ?_, ?_, ?_, ?_⟩
  · intro i hi
    rw [getD_replicate x i _ _ hi]
    exact List.length_replicate y 0
  · intro i hi j hj
    rw [hget i hi j hj]
    omega
  · intro j hj
    cases x with
    | zero =>
      unfold mfGet
      rfl
    | succ n => exact hget 0 (by omega) j hj
  · intro i hi
    cases y with
    | zero =>
      unfold mfGet
      rw [getD_replicate _ i _ _ hi]
      rfl
    | succ n => exact hget i hi 0 (by omega)

theorem mineSum_replicate (x y : Nat) :
    mineSum x y (List.replicate x (List.replicate y 0)) = 0 := by
  unfold mineSum
  apply Finset.sum_eq_zero
  intro q hq
  rw [Finset.mem_product, Finset.mem_range, Finset.mem_range] at hq
  unfold mfGet
  rw [getD_replicate x q.1 _ _ hq.1, getD_replicate y q.2 _ _ hq.2]

/-- Invariant and mine-count bookkeeping of the placement loop: a
successful run places exactly the remaining `k` mines and preserves the
structural invariant. -/
theorem mineLoop_spec (x y : Nat) (hx : 2 ≤ x) (hy : 2 ≤ y) :
    ∀ (draws : List (Nat × Nat)) (k : Nat) (mf : List (List Nat)),
    mfInv x y mf → ∀ mf2, mineLoop x y draws k mf = some mf2 →
    mfInv x y mf2 ∧ mineSum x y mf2 = mineSum x y mf + k := by
  intro draws
  induction draws with
  | nil =>
    intro k mf hinv mf2 h
    cases k with
    | zero =>
      rw [mineLoop] at h
      cases h
      exact ⟨hinv, by omega⟩
    | succ k =>
      rw [mineLoop] at h
      cases h
  | cons pq rest ih =>
    intro k mf hinv mf2 h
    cases k with
    | zero =>
      rw [mineLoop] at h
      cases h
      exact ⟨hinv, by omega⟩
    | succ k =>
      obtain ⟨p, q⟩ := pq
      rw [mineLoop] at h
      have ha1 : 1 ≤ 1 + p % (x - 1) := by omega
      have ha : 1 + p % (x - 1) < x := by
        have := Nat.mod_lt p (y := x - 1) (by omega)
        omega
      have hb1 : 1 ≤ 1 + q % (y - 1) := by omega
      have hb : 1 + q % (y - 1) < y := by
        have := Nat.mod_lt q (y := y - 1) (by omega)
        omega
      by_cases hhit : mfGet mf (1 + p % (x - 1)) (1 + q % (y - 1)) = 0
      · rw [if_pos hhit] at h
        have hinv2 := mfInv_set x y mf _ _ hinv ha1 ha hb1 hb
        obtain ⟨hinv3, hsum⟩ := ih k _ hinv2 mf2 h
        have hset := mineSum_set x y mf (1 + p % (x - 1)) (1 + q % (y - 1)) 1
          hinv.1 hinv.2.1 ha hb
        rw [hhit] at hset
        refine ⟨hinv3, by omega⟩
      · rw [if_neg hhit] at h
        exact ih (k + 1) mf hinv mf2 h

theorem sum_range_pos_ind (n : Nat) :
    (∑ i ∈ Finset.range n, (if 1 ≤ i then 1 else 0)) = n - 1 := by
  induction n with
  | zero => rfl
  | succ n ihn =>
    rw [Finset.sum_range_succ, ihn]
    by_cases h : 1 ≤ n
    · rw [if_pos h]
      omega
    · rw [if_neg h]
      omega

/-- Under the structural invariant, a minefield carries at most
`(x-1) * (y-1)` mines: the sampling pool excludes row `0` and column
`0`. -/
theorem mineSum_le (x y : Nat) (mf : List (List Nat)) (h : mfInv x y mf) :
    mineSum x y mf ≤ (x - 1) * (y - 1) := by
  obtain ⟨hlen, hrow, hle, hr0, hc0⟩ := h
  unfold mineSum
  calc ∑ q ∈ Finset.range x ×ˢ Finset.range y, mfGet mf q.1 q.2
      ≤ ∑ q ∈ Finset.range x ×ˢ Finset.range y,
        ((if 1 ≤ q.1 then 1 else 0) * (if 1 ≤ q.2 then 1 else 0)) := by
        apply Finset.sum_le_sum
        intro q hq
        rw [Finset.mem_product, Finset.mem_range, Finset.mem_range] at hq
        by_cases h1 : 1 ≤ q.1
        · by_cases h2 : 1 ≤ q.2
          · rw [if_pos h1, if_pos h2]
            simpa using hle q.1 hq.1 q.2 hq.2
          · have hq2 : q.2 = 0 := by omega
            rw [if_pos h1, if_neg h2, hq2]
            simp [hc0 q.1 hq.1]
        · have hq1 : q.1 = 0 := by omega
          rw [if_neg h1, hq1]
          simp [hr0 q.2 hq.2]
    _ = (x - 1) * (y - 1) := by
        rw [Finset.sum_product]
        have hin : ∀ i : Nat,
            (∑ j ∈ Finset.range y,
              (if 1 ≤ (i, j).1 then 1 else 0) * (if 1 ≤ (i, j).2 then 1 else 0))
            = (if 1 ≤ i then 1 else 0) * (y - 1) := by
          intro i
          dsimp only
          rw [← Finset.mul_sum, sum_range_pos_ind]
        rw [Finset.sum_congr rfl (fun i _ => hin i)]
        rw [← Finset.sum_mul, sum_range_pos_ind]

/-- When the requested mine count exceeds the `(x-1) * (y-1)` cells the
sampling can ever reach, no sequence of draws completes generation. -/
theorem genMinefield_stuck (x y z : Nat) (hx : 2 ≤ x) (hy : 2 ≤ y)
    (hz : (x - 1) * (y - 1) < z) :
    ∀ draws, genMinefield x y z draws = none := by
  intro draws
  cases h : genMinefield x y z draws with
  | none => rfl
  | some mf2 =>
    exfalso
    unfold genMinefield at h
    obtain ⟨hinv, hsum⟩ := mineLoop_spec x y hx hy draws z _ (mfInv_replicate x y) mf2 h
    rw [mineSum_replicate] at hsum
    have := mineSum_le x y mf2 hinv
    omega

/-- Claim C4 (counterexample): with `x = y = 2` and `z = 2` the claim
demands successful generation (`2 < 2*2 = rows*cols`, empty exclusion
set), but the code — whose `randrange(1, ·)` pool is the single cell
`(1,1)` and which performs no configuration check — never finishes for
any outcome of the random draws, and raises nothing. -/
theorem C4_counterexample :
    2 < 2 * 2 ∧ ∀ draws, genMinefield 2 2 2 draws = none :=
  ⟨by omega, genMinefield_stuck 2 2 2 (by omega) (by omega) (by omega)⟩

/-- Claim C4 (amended): `_generate_minefield` performs no up-front pool
check and raises no error; its rejection sampling draws only from rows
`1..x-1` and columns `1..y-1`, so whenever `z` exceeds `(x-1)*(y-1)` —
even for configurations with `z < x*y` that the claim calls feasible —
the loop never terminates: every finite sequence of random draws leaves
it still running. -/
theorem C4_no_feasibility_check (x y z : Nat) (hx : 2 ≤ x) (hy : 2 ≤ y)
    (hz : (x - 1) * (y - 1) < z) :
    ∀ draws, genMinefield x y z draws = none :=
  genMinefield_stuck x y z hx hy hz

/-- Claim C4 witness: a 3×3 request for `5` mines (`5 < 9 = rows*cols`)
never completes. -/
theorem C4_witness : genMinefield 3 3 5 [(0, 0), (1, 1), (2, 2)] = none :=
  C4_no_feasibility_check 3 3 5 (by omega) (by omega) (by omega)
    [(0, 0), (1, 1), (2, 2)]

/-- Claim C5: mines can never be placed in row `0` or column `0` —
`randrange(1, n)` never returns `0`, so for every outcome of the random
draws every cell of row `0` and of column `0` is mine-free, contradicting
uniform sampling over all coordinates. -/
theorem C5_row0_col0_mine_free (x y z : Nat) (draws : List (Nat × Nat))
    (mf : List (List Nat)) (hx : 2 ≤ x) (hy : 2 ≤ y)
    (h : genMinefield x y z draws = some mf) :
    (∀ j < y, mfGet mf 0 j = 0) ∧ (∀ i < x, mfGet mf i 0 = 0) := by
  unfold genMinefield at h
  obtain ⟨hinv, _⟩ := mineLoop_spec x y hx hy draws z _ (mfInv_replicate x y) mf h
  exact ⟨hinv.2.2.2.1, hinv.2.2.2.2⟩

/-- Claim C5 witness: a concrete successful generation on a 3×3 grid has
no mine anywhere in row `0` or column `0`. -/
theorem C5_witness :
    (∀ j < 3, mfGet [[0, 0, 0], [0, 1, 0], [0, 0, 1]] 0 j = 0) ∧
    (∀ i < 3, mfGet [[0, 0, 0], [0, 1, 0], [0, 0, 1]] i 0 = 0) :=
  C5_row0_col0_mine_free 3 3 2 [(0, 0), (1, 1)] _ (by omega) (by omega) (by decide)

/-- Claim C8: whenever generation completes, the minefield contains
exactly the requested number of mines — the sum of all entries equals
`z` — and has the requested dimensions. -/
theorem C8_exact_mine_count (x y z : Nat) (draws : List (Nat × Nat))
    (mf : List (List Nat)) (hx : 2 ≤ x) (hy : 2 ≤ y)
    (h : genMinefield x y z draws = some mf) :
    mineSum x y mf = z ∧ mf.length = x ∧ ∀ i < x, (mf.getD i []).length = y := by
  unfold genMinefield at h
  obtain ⟨hinv, hsum⟩ := mineLoop_spec x y hx hy draws z _ (mfInv_replicate x y) mf h
  rw [mineSum_replicate] at hsum
  exact ⟨by omega, hinv.1, hinv.2.1⟩

/-- Claim C8 witness: a concrete 3×3 generation of two mines. -/
theorem C8_witness :
    mineSum 3 3 [[0, 0, 0], [0, 1, 0], [0, 0, 1]] = 2 ∧
    ([[0, 0, 0], [0, 1, 0], [0, 0, 1]] : List (List Nat)).length = 3 ∧
    ∀ i < 3, (([[0, 0, 0], [0, 1, 0], [0, 0, 1]] : List (List Nat)).getD i []).length = 3 :=
  C8_exact_mine_count 3 3 2 [(0, 0), (1, 1)] _ (by omega) (by omega) (by decide)

-- ### Value-computation lemmas

theorem mineNbCount_bounds (b : Board) (i j : Nat) :
    0 ≤ mineNbCount b i j ∧ mineNbCount b i j ≤ 8 := by
  unfold mineNbCount
  have h01 : ∀ (c : Prop) (inst : Decidable c),
      (0 : Int) ≤ (if c then 1 else 0) ∧ (if c then (1 : Int) else 0) ≤ 1 := by
    intro c inst
    split <;> omega
  have h1 := h01 (1 ≤ i ∧ (b.get (i - 1) j).state = 1) inferInstance
  have h2 := h01 (i + 1 < b.x ∧ (b.get (i + 1) j).state = 1) inferInstance
  have h3 := h01 (1 ≤ j ∧ (b.get i (j - 1)).state = 1) inferInstance
  have h4 := h01 (j + 1 < b.y ∧ (b.get i (j + 1)).state = 1) inferInstance
  have h5 := h01 (1 ≤ i ∧ 1 ≤ j ∧ (b.get (i - 1) (j - 1)).state = 1) inferInstance
  have h6 := h01 (i + 1 < b.x ∧ 1 ≤ j ∧ (b.get (i + 1) (j - 1)).state = 1) inferInstance
  have h7 := h01 (1 ≤ i ∧ j + 1 < b.y ∧ (b.get (i - 1) (j + 1)).state = 1) inferInstance
  have h8 := h01 (i + 1 < b.x ∧ j + 1 < b.y ∧ (b.get (i + 1) (j + 1)).state = 1) inferInstance
  omega

theorem valueContrib_of_inv (b0 b : Board) (hinv : tmpInv b0 b)
    (h01 : ∀ k, k < b0.x → ∀ l, l < b0.y →
      (b0.get k l).state = 0 ∨ (b0.get k l).state = 1)
    (k l : Nat) (hk : k < b0.x) (hl : l < b0.y) :
    valueContrib (b.get k l).state = (if (b0.get k l).state = 1 then 1 else 0) := by
  obtain ⟨hx, hy, hcell⟩ := hinv
  have hc := hcell k l hk hl
  by_cases ht : (b.get k l).tmp_calc = true
  · have hst := hc.2 ht
    by_cases hm : (b0.get k l).state = 1
    · rw [hm] at hst
      rw [hst]
      rw [if_pos hm]
      unfold valueContrib
      norm_num
    · rw [if_neg hm] at hst
      rw [hst, if_neg hm]
      unfold valueContrib
      have hb := mineNbCount_bounds b0 k l
      rw [if_neg (by omega), if_neg (by omega)]
  · have ht0 : (b.get k l).tmp_calc = false := by
      cases h : (b.get k l).tmp_calc
      · rfl
      · exact absurd h ht
    have hst := hc.1 ht0
    rcases h01 k hk l hl with h0 | h1
    · rw [hst, h0, if_neg (by omega)]
      unfold valueContrib
      norm_num
    · rw [hst, h1]
      unfold valueContrib
      norm_num

theorem valueCalc_of_inv (b0 b : Board) (hinv : tmpInv b0 b)
    (h01 : ∀ k, k < b0.x → ∀ l, l < b0.y →
      (b0.get k l).state = 0 ∨ (b0.get k l).state = 1)
    (i j : Nat) (hi : i < b0.x) (hj : j < b0.y)
    (hun : (b.get i j).tmp_calc = false) :
    valueCalc b i j = (if (b0.get i j).state = 1 then 19 else 10 + mineNbCount b0 i j) := by
  have hx := hinv.1
  have hy := hinv.2.1
  have hst : (b.get i j).state = (b0.get i j).state :=
    (hinv.2.2 i j hi hj).1 hun
  unfold valueCalc
  rw [hst, hx, hy]
  by_cases hm : (b0.get i j).state = 1
  · rw [if_pos hm, if_pos hm]
    norm_num
  · rw [if_neg hm, if_neg hm]
    have t1 : (if 1 ≤ i then valueContrib (b.get (i - 1) j).state else 0)
        = (if 1 ≤ i ∧ (b0.get (i - 1) j).state = 1 then 1 else 0) := by
      by_cases hg : 1 ≤ i
      · rw [if_pos hg, valueContrib_of_inv b0 b hinv h01 (i - 1) j (by omega) hj]
        by_cases hmm : (b0.get (i - 1) j).state = 1
        · rw [if_pos hmm, if_pos ⟨hg, hmm⟩]
        · rw [if_neg hmm, if_neg (by intro ⟨_, hc⟩; exact hmm hc)]
      · rw [if_neg hg, if_neg (by intro ⟨hc, _⟩; exact hg hc)]
    have t2 : (if i + 1 < b0.x then valueContrib (b.get (i + 1) j).state else 0)
        = (if i + 1 < b0.x ∧ (b0.get (i + 1) j).state = 1 then 1 else 0) := by
      by_cases hg : i + 1 < b0.x
      · rw [if_pos hg, valueContrib_of_inv b0 b hinv h01 (i + 1) j (by omega) hj]
        by_cases hmm : (b0.get (i + 1) j).state = 1
        · rw [if_pos hmm, if_pos ⟨hg, hmm⟩]
        · rw [if_neg hmm, if_neg (by intro ⟨_, hc⟩; exact hmm hc)]
      · rw [if_neg hg, if_neg (by intro ⟨hc, _⟩; exact hg hc)]
    have t3 : (if 1 ≤ j then valueContrib (b.get i (j - 1)).state else 0)
        = (if 1 ≤ j ∧ (b0.get i (j - 1)).state = 1 then 1 else 0) := by
      by_cases hg : 1 ≤ j
      · rw [if_pos hg, valueContrib_of_inv b0 b hinv h01 i (j - 1) hi (by omega)]
        by_cases hmm : (b0.get i (j - 1)).state = 1
        · rw [if_pos hmm, if_pos ⟨hg, hmm⟩]
        · rw [if_neg hmm, if_neg (by intro ⟨_, hc⟩; exact hmm hc)]
      · rw [if_neg hg, if_neg (by intro ⟨hc, _⟩; exact hg hc)]
    have t4 : (if j + 1 < b0.y then valueContrib (b.get i (j + 1)).state else 0)
        = (if j + 1 < b0.y ∧ (b0.get i (j + 1)).state = 1 then 1 else 0) := by
      by_cases hg : j + 1 < b0.y
      · rw [if_pos hg, valueContrib_of_inv b0 b hinv h01 i (j + 1) hi (by omega)]
        by_cases hmm : (b0.get i (j + 1)).state = 1
        · rw [if_pos hmm, if_pos ⟨hg, hmm⟩]
        · rw [if_neg hmm, if_neg (by intro ⟨_, hc⟩; exact hmm hc)]
      · rw [if_neg hg, if_neg (by intro ⟨hc, _⟩; exact hg hc)]
    have t5 : (if 1 ≤ i ∧ 1 ≤ j then valueContrib (b.get (i - 1) (j - 1)).state else 0)
        = (if 1 ≤ i ∧ 1 ≤ j ∧ (b0.get (i - 1) (j - 1)).state = 1 then 1 else 0) := by
      by_cases hg : 1 ≤ i ∧ 1 ≤ j
      · rw [if_pos hg,
          valueContrib_of_inv b0 b hinv h01 (i - 1) (j - 1) (by omega) (by omega)]
        by_cases hmm : (b0.get (i - 1) (j - 1)).state = 1
        · rw [if_pos hmm, if_pos ⟨hg.1, hg.2, hmm⟩]
        · rw [if_neg hmm, if_neg (by intro ⟨_, _, hc⟩; exact hmm hc)]
      · rw [if_neg hg, if_neg (by intro ⟨hc1, hc2, _⟩; exact hg ⟨hc1, hc2⟩)]
    have t6 : (if i + 1 < b0.x ∧ 1 ≤ j then valueContrib (b.get (i + 1) (j - 1)).state else 0)
        = (if i + 1 < b0.x ∧ 1 ≤ j ∧ (b0.get (i + 1) (j - 1)).state = 1 then 1 else 0) := by
      by_cases hg : i + 1 < b0.x ∧ 1 ≤ j
      · rw [if_pos hg,
          valueContrib_of_inv b0 b hinv h01 (i + 1) (j - 1) (by omega) (by omega)]
        by_cases hmm : (b0.get (i + 1) (j - 1)).state = 1
        · rw [if_pos hmm, if_pos ⟨hg.1, hg.2, hmm⟩]
        · rw [if_neg hmm, if_neg (by intro ⟨_, _, hc⟩; exact hmm hc)]
      · rw [if_neg hg, if_neg (by intro ⟨hc1, hc2, _⟩; exact hg ⟨hc1, hc2⟩)]
    have t7 : (if 1 ≤ i ∧ j + 1 < b0.y then valueContrib (b.get (i - 1) (j + 1)).state else 0)
        = (if 1 ≤ i ∧ j + 1 < b0.y ∧ (b0.get (i - 1) (j + 1)).state = 1 then 1 else 0) := by
      by_cases hg : 1 ≤ i ∧ j + 1 < b0.y
      · rw [if_pos hg,
          valueContrib_of_inv b0 b hinv h01 (i - 1) (j + 1) (by omega) (by omega)]
        by_cases hmm : (b0.get (i - 1) (j + 1)).state = 1
        · rw [if_pos hmm, if_pos ⟨hg.1, hg.2, hmm⟩]
        · rw [if_neg hmm, if_neg (by intro ⟨_, _, hc⟩; exact hmm hc)]
      · rw [if_neg hg, if_neg (by intro ⟨hc1, hc2, _⟩; exact hg ⟨hc1, hc2⟩)]
    have t8 : (if i + 1 < b0.x ∧ j + 1 < b0.y then valueContrib (b.get (i + 1) (j + 1)).state else 0)
        = (if i + 1 < b0.x ∧ j + 1 < b0.y ∧ (b0.get (i + 1) (j + 1)).state = 1 then 1 else 0) := by
      by_cases hg : i + 1 < b0.x ∧ j + 1 < b0.y
      · rw [if_pos hg,
          valueContrib_of_inv b0 b hinv h01 (i + 1) (j + 1) (by omega) (by omega)]
        by_cases hmm : (b0.get (i + 1) (j + 1)).state = 1
        · rw [if_pos hmm, if_pos ⟨hg.1, hg.2, hmm⟩]
        · rw [if_neg hmm, if_neg (by intro ⟨_, _, hc⟩; exact hmm hc)]
      · rw [if_neg hg, if_neg (by intro ⟨hc1, hc2, _⟩; exact hg ⟨hc1, hc2⟩)]
    rw [t1, t2, t3, t4, t5, t6, t7, t8]
    unfold mineNbCount
    ring

/-- The transitional pass preserves the encoding invariant. -/
theorem tmpValueCalc_keeps_inv : ∀ f b0 b i j,
    (∀ k, k < b0.x → ∀ l, l < b0.y →
      (b0.get k l).state = 0 ∨ (b0.get k l).state = 1) →
    b.wf → tmpInv b0 b →
    tmpInv b0 (tmpValueCalc f b i j) := by
  intro f
  induction f with
  | zero =>
    intro b0 b i j h01 hwb hinv
    rw [tmpValueCalc]
    exact hinv
  | succ f ih =>
    intro b0 b i j h01 hwb hinv
    by_cases ht : (b.get i j).tmp_calc = true
    · rw [tmpValueCalc, if_pos ht]
      exact hinv
    · have ht0 : (b.get i j).tmp_calc = false := by
        cases h : (b.get i j).tmp_calc
        · rfl
        · exact absurd h ht
      rw [tmpValueCalc, if_neg ht]
      dsimp only
      set t1 : Tile := { b.get i j with state := valueCalc b i j, tmp_calc := true } with ht1
      set b1 := b.setTile i j t1 with hb1
      have hw1 : b1.wf := Board.wf_setTile b i j t1 hwb
      have hinv1 : tmpInv b0 b1 := by
        refine ⟨hinv.1, hinv.2.1, ?_⟩
        intro k l hk hl
        rcases Board.get_setTile_cases b i j k l t1 with h | ⟨h, rfl, rfl⟩
        · rw [h]
          exact hinv.2.2 k l hk hl
        · rw [h, ht1]
          constructor
          · intro hf
            cases hf
          · intro _
            exact valueCalc_of_inv b0 b hinv h01 k l hk hl ht0
      have hstep : ∀ (c : Board) (k' l' : Nat) (cond : Prop) (inst : Decidable cond),
          c.wf → tmpInv b0 c →
          (if cond then tmpValueCalc f c k' l' else c).wf ∧
          tmpInv b0 (if cond then tmpValueCalc f c k' l' else c) := by
        intro c k' l' cond inst hwc hic
        split
        · exact ⟨(tmpValueCalc_dimWF f c k' l').2.2 hwc, ih b0 c k' l' h01 hwc hic⟩
        · exact ⟨hwc, hic⟩
      have h2 := hstep b1 (i - 1) j (1 ≤ i) inferInstance hw1 hinv1
      have h3 := hstep _ (i + 1) j (i + 1 < b.x) inferInstance h2.1 h2.2
      have h4 := hstep _ i (j - 1) (1 ≤ j) inferInstance h3.1 h3.2
      have h5 := hstep _ i (j + 1) (j + 1 < b.y) inferInstance h4.1 h4.2
      exact h5.2

/-- Claim C3: after `calculate_values` (the in-place transitional pass
with its `+10` offset followed by the final `-10` pass, both started at
tile `(0,0)`), every non-mine tile's state equals the number of its
in-bounds 8-neighbours that are mines — a value in `0..8` — and every
mine tile carries the sentinel `9`. -/
theorem C3_values_correct (b : Board) (hw : b.wf) (hx : 1 ≤ b.x) (hy : 1 ≤ b.y)
    (h01 : ∀ k, k < b.x → ∀ l, l < b.y →
      (b.get k l).state = 0 ∨ (b.get k l).state = 1)
    (hmk : ∀ k, k < b.x → ∀ l, l < b.y →
      (b.get k l).tmp_calc = false ∧ (b.get k l).final_calc = false) :
    ∀ k, k < b.x → ∀ l, l < b.y →
      ((b.get k l).state = 1 → ((calculateValues b).get k l).state = 9) ∧
      ((b.get k l).state = 0 → ((calculateValues b).get k l).state = mineNbCount b k l
        ∧ 0 ≤ mineNbCount b k l ∧ mineNbCount b k l ≤ 8) := by
  unfold calculateValues
  dsimp only
  set b1 := tmpValueCalc (countIdx b (fun t => !t.tmp_calc)) b 0 0 with hb1
  have d1 : dimWF b b1 := tmpValueCalc_dimWF _ b 0 0
  have hw1 : b1.wf := d1.2.2 hw
  have hinv0 : tmpInv b b := by
    refine ⟨rfl, rfl, ?_⟩
    intro k l hk hl
    refine ⟨fun _ => rfl, fun htc => ?_⟩
    have h := (hmk k hk l hl).1
    rw [h] at htc
    cases htc
  have hinv1 : tmpInv b b1 := by
    rw [hb1]
    exact tmpValueCalc_keeps_inv _ b b 0 0 h01 hw hinv0
  have hcomp := tmpValueCalc_complete (countIdx b (fun t => !t.tmp_calc)) b 0 0
    hw (by omega) (by omega) (le_refl _)
  have htmp1 : ∀ k l, k < b.x → l < b.y → (b1.get k l).tmp_calc = true := by
    refine grid_reach b.x b.y _ 0 0 (by omega) (by omega) hcomp.1 ?_
    intro k l hk hl hS
    exact hcomp.2 k l hk hl (hmk k hk l hl).1 hS
  have hstate1 : ∀ k l, k < b.x → l < b.y → (b1.get k l).state
      = (if (b.get k l).state = 1 then 19 else 10 + mineNbCount b k l) := by
    intro k l hk hl
    exact (hinv1.2.2 k l hk hl).2 (htmp1 k l hk hl)
  have hfin1 : ∀ k l, k < b.x → l < b.y → (b1.get k l).final_calc = false := by
    intro k l hk hl
    have hr := tmpValueCalc_tmpR (countIdx b (fun t => !t.tmp_calc)) b 0 0 k l
    rw [tmpR_final_eq _ _ hr]
    exact (hmk k hk l hl).2
  set b2 := finalValueCalc (countIdx b1 (fun t => !t.final_calc)) b1 0 0 with hb2
  have hcomp2 := finalValueCalc_complete (countIdx b1 (fun t => !t.final_calc)) b1 0 0
    hw1 (by rw [d1.1]; omega) (by rw [d1.2.1]; omega) (le_refl _)
  have hfin2 : ∀ k l, k < b1.x → l < b1.y → (b2.get k l).final_calc = true := by
    refine grid_reach b1.x b1.y _ 0 0 (by rw [d1.1]; omega) (by rw [d1.2.1]; omega)
      hcomp2.1 ?_
    intro k l hk hl hS
    exact hcomp2.2 k l hk hl
      (hfin1 k l (by rw [← d1.1]; exact hk) (by rw [← d1.2.1]; exact hl)) hS
  have hstate2 : ∀ k l, k < b.x → l < b.y →
      (b2.get k l).state = (b1.get k l).state - 10 := by
    intro k l hk hl
    have hr := finalValueCalc_finR (countIdx b1 (fun t => !t.final_calc)) b1 0 0 k l
    exact finR_state_of_new _ _ hr (hfin1 k l hk hl)
      (hfin2 k l (by rw [d1.1]; exact hk) (by rw [d1.2.1]; exact hl))
  intro k hk l hl
  constructor
  · intro hm
    rw [hstate2 k l hk hl, hstate1 k l hk hl, if_pos hm]
    norm_num
  · intro h0
    have hm : ¬(b.get k l).state = 1 := by omega
    refine ⟨?_, (mineNbCount_bounds b k l).1, (mineNbCount_bounds b k l).2⟩
    rw [hstate2 k l hk hl, hstate1 k l hk hl, if_neg hm]
    ring

/-- Claim C3 witness: the 3×3 board with one mine at `(1,1)` — the mine
gets sentinel `9`, the corner `(0,0)` gets its computed neighbour-mine
count, which is `1`. -/
theorem C3_witness :
    ((calculateValues bC3).get 1 1).state = 9 ∧
    ((calculateValues bC3).get 0 0).state = mineNbCount bC3 0 0 ∧
    mineNbCount bC3 0 0 = 1 := by
  have h := C3_values_correct bC3 (by decide) (by decide) (by decide)
    (by decide) (by decide)
  exact ⟨(h 1 (by decide) 1 (by decide)).1 (by decide),
         ((h 0 (by decide) 0 (by decide)).2 (by decide)).1, by decide⟩
